import Mathlib

/-!
Verification development for the solid-fs-components repository.

The development shallowly embeds the two core modules:
  - the virtual filesystem store (src/src/create-file-system.ts), modelled as an
    association list from path strings to entries, with the JavaScript object
    update/delete semantics made explicit;
  - the tree controller (src/src/file-tree/index.tsx): the identity registry,
    rename, selection-range resolution and the move transform.

Path algebra (src/src/utils.ts) is modelled on character lists so that the
JavaScript behaviours of String.prototype.split, Array.prototype.join,
String.prototype.replace (first occurrence only) and String.prototype.includes
are reproduced exactly.
-/

namespace SolidFs

/-! ## Character-list primitives mirroring JavaScript string operations -/

/-- JavaScript s.includes(pat): pat occurs as a contiguous substring of s. -/
def containsSub (pat : List Char) : List Char → Bool
  | [] => pat.isPrefixOf []
  | c :: t => pat.isPrefixOf (c :: t) || containsSub pat t

/-- JavaScript s.replace(pat, rep) with a plain-string pattern: replace the
first occurrence of pat only; if pat does not occur, return s unchanged. -/
def replaceFirst (pat rep : List Char) : List Char → List Char
  | [] => if pat.isPrefixOf ([] : List Char) then rep else []
  | c :: t =>
    if pat.isPrefixOf (c :: t) then rep ++ (c :: t).drop pat.length
    else c :: replaceFirst pat rep t

/-- JavaScript s.split(sep-char): always returns at least one (possibly empty)
segment; here specialised to a single separator character. -/
def splitSegs : List Char → List (List Char)
  | [] => [[]]
  | c :: cs =>
    if c = '/' then [] :: splitSegs cs
    else (c :: (splitSegs cs).headD []) :: (splitSegs cs).tail

/-- JavaScript arr.join(sep-char) for a single separator character. -/
def joinSegs : List (List Char) → List Char
  | [] => []
  | [s] => s
  | s :: t :: rest => s ++ '/' :: joinSegs (t :: rest)

theorem splitSegs_ne_nil (l : List Char) : splitSegs l ≠ [] := by
  cases l with
  | nil => simp [splitSegs]
  | cons c cs =>
    by_cases hc : c = '/' <;> simp [splitSegs, hc]

theorem splitSegs_append_sep (a b : List Char) :
    splitSegs (a ++ '/' :: b) = splitSegs a ++ splitSegs b := by
  induction a with
  | nil => simp [splitSegs]
  | cons c cs ih =>
    by_cases hc : c = '/'
    · simp [splitSegs, hc, ih]
    · simp only [List.cons_append, splitSegs, if_neg hc, ih]
      cases h : splitSegs cs with
      | nil => exact absurd h (splitSegs_ne_nil cs)
      | cons s rest =>
        simp only [List.append_eq]
        rw [ih, h]
        simp

theorem joinSegs_cons (s : List Char) (rest : List (List Char)) (h : rest ≠ []) :
    joinSegs (s :: rest) = s ++ '/' :: joinSegs rest := by
  cases rest with
  | nil => exact absurd rfl h
  | cons t r => rfl

theorem joinSegs_splitSegs (l : List Char) : joinSegs (splitSegs l) = l := by
  induction l with
  | nil => rfl
  | cons c cs ih =>
    by_cases hc : c = '/'
    · rw [splitSegs, if_pos hc, joinSegs_cons _ _ (splitSegs_ne_nil cs), ih, hc]
      rfl
    · rw [splitSegs, if_neg hc]
      cases h : splitSegs cs with
      | nil => exact absurd h (splitSegs_ne_nil cs)
      | cons s rest =>
        rw [h] at ih
        cases rest with
        | nil =>
          have hs : s = cs := ih
          show c :: s = c :: cs
          rw [hs]
        | cons t r =>
          have hs : s ++ '/' :: joinSegs (t :: r) = cs := ih
          show c :: (s ++ '/' :: joinSegs (t :: r)) = c :: cs
          rw [hs]

theorem noSlash_of_mem_splitSegs (l : List Char) :
    ∀ s ∈ splitSegs l, '/' ∉ s := by
  induction l with
  | nil =>
    intro s hs
    simp only [splitSegs, List.mem_singleton] at hs
    subst hs; simp
  | cons c cs ih =>
    intro s hs
    by_cases hc : c = '/'
    · rw [splitSegs, if_pos hc] at hs
      rcases List.mem_cons.mp hs with rfl | hs2
      · simp
      · exact ih s hs2
    · rw [splitSegs, if_neg hc] at hs
      cases h : splitSegs cs with
      | nil => exact absurd h (splitSegs_ne_nil cs)
      | cons t rest =>
        rw [h] at hs
        have iht : '/' ∉ t := ih t (by rw [h]; exact List.mem_cons_self _ _)
        rcases List.mem_cons.mp hs with rfl | hs2
        · intro hm
          rcases List.mem_cons.mp hm with h2 | h2
          · exact hc h2.symm
          · exact iht h2
        · exact ih s (by rw [h]; exact List.mem_cons_of_mem _ hs2)

theorem splitSegs_noSlash (l : List Char) (h : '/' ∉ l) : splitSegs l = [l] := by
  induction l with
  | nil => rfl
  | cons c cs ih =>
    have hc : c ≠ '/' := fun hc => h (hc ▸ List.mem_cons_self _ _)
    have hcs : '/' ∉ cs := fun hm => h (List.mem_cons_of_mem _ hm)
    simp only [splitSegs, ih hcs]
    simp [fun h => hc h]

theorem splitSegs_joinSegs (L : List (List Char)) (hne : L ≠ [])
    (hs : ∀ s ∈ L, '/' ∉ s) : splitSegs (joinSegs L) = L := by
  induction L with
  | nil => exact absurd rfl hne
  | cons s rest ih =>
    cases rest with
    | nil =>
      simp only [joinSegs]
      exact splitSegs_noSlash s (hs s (List.mem_cons_self _ _))
    | cons t r =>
      rw [joinSegs_cons _ _ (by simp), splitSegs_append_sep]
      rw [splitSegs_noSlash s (hs s (List.mem_cons_self _ _))]
      rw [ih (by simp) (fun u hu => hs u (List.mem_cons_of_mem _ hu))]
      rfl

theorem joinSegs_append (xs ys : List (List Char)) (hx : xs ≠ []) (hy : ys ≠ []) :
    joinSegs (xs ++ ys) = joinSegs xs ++ '/' :: joinSegs ys := by
  induction xs with
  | nil => exact absurd rfl hx
  | cons s rest ih =>
    cases rest with
    | nil =>
      cases ys with
      | nil => exact absurd rfl hy
      | cons t r => rfl
    | cons t r =>
      rw [List.cons_append, joinSegs_cons _ _ (by simp),
        joinSegs_cons _ _ (by simp), ih (by simp)]
      simp

theorem isPrefixOf_iff_append {α : Type} [BEq α] [LawfulBEq α] (l m : List α) :
    l.isPrefixOf m = true ↔ ∃ t, m = l ++ t := by
  induction l generalizing m with
  | nil => simp [List.isPrefixOf]
  | cons a as ih =>
    cases m with
    | nil => simp [List.isPrefixOf]
    | cons b bs =>
      simp only [List.isPrefixOf, Bool.and_eq_true, beq_iff_eq, ih]
      constructor
      · rintro ⟨rfl, t, rfl⟩
        exact ⟨t, by simp⟩
      · rintro ⟨t, ht⟩
        rw [List.cons_append] at ht
        injection ht with h1 h2
        exact ⟨h1.symm, t, h2⟩

theorem isPrefixOf_append_extend {α : Type} [BEq α] [LawfulBEq α] (l m b : List α)
    (h : l.isPrefixOf m = true) : l.isPrefixOf (m ++ b) = true := by
  rw [isPrefixOf_iff_append] at h ⊢
  obtain ⟨t, rfl⟩ := h
  exact ⟨t ++ b, by simp⟩

/-! ## PathUtils (src/src/utils.ts) -/

/-- Segments of a path string, as produced by JavaScript path.split('/'). -/
def segsOf (s : String) : List (List Char) := splitSegs s.data

/-- PathUtils.normalize: strip leading slashes only. -/
def normPath (s : String) : String := ⟨s.data.dropWhile (fun c => c == '/')⟩

/-- PathUtils.getParent: all segments except the last, joined. -/
def getParent (p : String) : String := ⟨joinSegs (segsOf p).dropLast⟩

/-- PathUtils.getName: the last segment. -/
def getName (p : String) : String := ⟨(segsOf p).getLastD []⟩

/-- PathUtils.isAncestor(path, ancestor): ancestor is a strict segment-aligned
prefix of path (comparing beyond the length of path yields undefined in the
JavaScript original, which fails the equality test). -/
def isAncestor (path ancestor : String) : Bool :=
  if path == ancestor then false
  else (segsOf ancestor).isPrefixOf (segsOf path)

/-- JavaScript s.includes(pat) on strings. -/
def strContains (s pat : String) : Bool := containsSub pat.data s.data

/-- JavaScript s.replace(pat, rep) with a plain-string pattern. -/
def strReplaceFirst (s pat rep : String) : String :=
  ⟨replaceFirst pat.data rep.data s.data⟩

/-- PathUtils.rebase. -/
def rebase (p a b : String) : String :=
  if isAncestor p a || p == a then strReplaceFirst p a b else p

theorem stringEqOfData {p a : String} (h : p.data = a.data) : p = a := by
  cases p; cases a; exact congrArg String.mk h

theorem joinSegs_segsOf (p : String) : joinSegs (segsOf p) = p.data :=
  joinSegs_splitSegs p.data

theorem isAncestor_iff (p a : String) :
    isAncestor p a = true ↔ ∃ s, p.data = a.data ++ '/' :: s := by
  unfold isAncestor
  constructor
  · intro h
    by_cases he : p == a
    · rw [if_pos he] at h; exact absurd h (by simp)
    · rw [if_neg he] at h
      rw [isPrefixOf_iff_append] at h
      obtain ⟨t, ht⟩ := h
      cases t with
      | nil =>
        exfalso
        apply he
        have hd : p.data = a.data := by
          have h1 : joinSegs (segsOf p) = joinSegs (segsOf a ++ []) := by rw [ht]
          rw [List.append_nil, joinSegs_segsOf, joinSegs_segsOf] at h1
          exact h1
        exact beq_iff_eq.mpr (stringEqOfData hd)
      | cons u us =>
        refine ⟨joinSegs (u :: us), ?_⟩
        have h1 : joinSegs (segsOf p) = joinSegs (segsOf a ++ u :: us) := by rw [ht]
        rw [joinSegs_segsOf,
          joinSegs_append (segsOf a) (u :: us) (splitSegs_ne_nil a.data) (by simp),
          joinSegs_segsOf] at h1
        exact h1
  · rintro ⟨s, hs⟩
    have hne : ¬(p == a) := by
      intro hb
      have hpa : p = a := beq_iff_eq.mp hb
      subst hpa
      have hlen := congrArg List.length hs
      simp at hlen
    rw [if_neg hne, isPrefixOf_iff_append]
    refine ⟨splitSegs s, ?_⟩
    show splitSegs p.data = splitSegs a.data ++ splitSegs s
    rw [hs, splitSegs_append_sep]

theorem replaceFirst_of_isPrefix (pat rep s : List Char)
    (h : pat.isPrefixOf s = true) :
    replaceFirst pat rep s = rep ++ s.drop pat.length := by
  cases s with
  | nil =>
    rw [replaceFirst, if_pos h]
    simp
  | cons c t =>
    rw [replaceFirst, if_pos h]

theorem containsSub_of_isPrefix (pat s : List Char)
    (h : pat.isPrefixOf s = true) : containsSub pat s = true := by
  cases s with
  | nil => simpa [containsSub] using h
  | cons c t => simp [containsSub, h]

theorem containsSub_append_extend (pat a b : List Char)
    (h : containsSub pat a = true) : containsSub pat (a ++ b) = true := by
  induction a with
  | nil =>
    simp only [containsSub] at h
    have : pat = [] := by
      rw [isPrefixOf_iff_append] at h
      obtain ⟨t, ht⟩ := h
      simpa using (List.append_eq_nil.mp ht.symm).1
    subst this
    exact containsSub_of_isPrefix _ _ (by simp [List.isPrefixOf])
  | cons c t ih =>
    simp only [containsSub, Bool.or_eq_true] at h ⊢
    rcases h with h | h
    · exact Or.inl (isPrefixOf_append_extend _ _ _ h)
    · exact Or.inr (ih h)

/-! ## Lexicographic string comparison used by the sorting comparators

JavaScript compares strings code unit by code unit; the comparison is made
explicit on character lists so that every use is executable. -/

def listLtb : List Char → List Char → Bool
  | [], [] => false
  | [], _ :: _ => true
  | _ :: _, [] => false
  | a :: as, b :: bs => if a < b then true else if b < a then false else listLtb as bs

/-- Model of JavaScript toLowerCase. -/
def lowStr (s : String) : String := ⟨s.data.map Char.toLower⟩

/-- The comparator a.toLowerCase() < b.toLowerCase() used in the move sort. -/
def lowLt (a b : String) : Bool := listLtb (lowStr a).data (lowStr b).data

theorem listLtb_append_cons (l : List Char) (c : Char) (m : List Char) :
    listLtb l (l ++ c :: m) = true := by
  induction l with
  | nil => rfl
  | cons a as ih => simpa [listLtb, lt_irrefl] using ih

theorem listLtb_irrefl (l : List Char) : listLtb l l = false := by
  induction l with
  | nil => rfl
  | cons a as ih => simpa [listLtb, lt_irrefl] using ih

theorem listLtb_asymm {l m : List Char} (h : listLtb l m = true) :
    listLtb m l = false := by
  induction l generalizing m with
  | nil =>
    cases m with
    | nil => exact absurd h (by simp [listLtb])
    | cons b bs => rfl
  | cons a as ih =>
    cases m with
    | nil => exact absurd h (by simp [listLtb])
    | cons b bs =>
      rw [listLtb] at h ⊢
      by_cases hab : a < b
      · rw [if_neg (lt_asymm hab), if_pos hab]
      · rw [if_neg hab] at h
        by_cases hba : b < a
        · rw [if_pos hba] at h
          exact absurd h (by simp)
        · rw [if_neg hba] at h
          rw [if_neg hba, if_neg hab]
          exact ih h

theorem listLtb_conn {l m : List Char} (h1 : listLtb l m = false) (h2 : l ≠ m) :
    listLtb m l = true := by
  induction l generalizing m with
  | nil =>
    cases m with
    | nil => exact absurd rfl h2
    | cons b bs => exact absurd h1 (by simp [listLtb])
  | cons a as ih =>
    cases m with
    | nil => rfl
    | cons b bs =>
      rw [listLtb] at h1 ⊢
      by_cases hab : a < b
      · rw [if_pos hab] at h1
        exact absurd h1 (by simp)
      · rw [if_neg hab] at h1
        by_cases hba : b < a
        · rw [if_pos hba]
        · rw [if_neg hba] at h1
          rw [if_neg hba, if_neg hab]
          apply ih h1
          intro hasbs
          exact h2 (by rw [hasbs, le_antisymm (not_lt.mp hba) (not_lt.mp hab)])

theorem listLtb_trans {l m n : List Char} (h1 : listLtb l m = true)
    (h2 : listLtb m n = true) : listLtb l n = true := by
  induction l generalizing m n with
  | nil =>
    cases n with
    | nil =>
      cases m with
      | nil => exact h2
      | cons b bs => exact absurd h2 (by simp [listLtb])
    | cons c cs => rfl
  | cons a as ih =>
    cases m with
    | nil => exact absurd h1 (by simp [listLtb])
    | cons b bs =>
      cases n with
      | nil => exact absurd h2 (by simp [listLtb])
      | cons c cs =>
        rw [listLtb] at h1 h2 ⊢
        by_cases hab : a < b
        · rw [if_pos hab] at h1
          by_cases hbc : b < c
          · rw [if_pos (lt_trans hab hbc)]
          · rw [if_neg hbc] at h2
            by_cases hcb : c < b
            · rw [if_pos hcb] at h2
              exact absurd h2 (by simp)
            · have hbc2 : b = c := le_antisymm (not_lt.mp hcb) (not_lt.mp hbc)
              rw [if_pos (hbc2 ▸ hab)]
        · rw [if_neg hab] at h1
          by_cases hba : b < a
          · rw [if_pos hba] at h1
            exact absurd h1 (by simp)
          · rw [if_neg hba] at h1
            have hab2 : a = b := le_antisymm (not_lt.mp hba) (not_lt.mp hab)
            subst hab2
            by_cases hac : a < c
            · rw [if_pos hac]
            · rw [if_neg hac] at h2 ⊢
              by_cases hca : c < a
              · rw [if_pos hca] at h2
                exact absurd h2 (by simp)
              · rw [if_neg hca] at h2 ⊢
                exact ih h1 h2

theorem lowLt_trans {a b c : String} (h1 : lowLt a b = true)
    (h2 : lowLt b c = true) : lowLt a c = true :=
  listLtb_trans h1 h2

theorem lowLt_asymm {a b : String} (h : lowLt a b = true) : lowLt b a = false :=
  listLtb_asymm h

theorem lowLt_of_not_of_ne {a b : String} (h1 : lowLt a b = false)
    (h2 : lowStr a ≠ lowStr b) : lowLt b a = true := by
  apply listLtb_conn h1
  intro hd
  exact h2 (stringEqOfData hd)

theorem lowLt_of_isAncestor {p a : String} (h : isAncestor p a = true) :
    lowLt a p = true := by
  rw [isAncestor_iff] at h
  obtain ⟨s, hs⟩ := h
  rw [lowLt]
  have hd : (lowStr p).data =
      (lowStr a).data ++ Char.toLower '/' :: s.map Char.toLower := by
    rw [lowStr, lowStr, hs]
    simp
  rw [hd]
  exact listLtb_append_cons _ _ _

theorem lowStr_ne_of_isAncestor {p a : String} (h : isAncestor p a = true) :
    lowStr a ≠ lowStr p := by
  intro he
  have h1 := lowLt_of_isAncestor h
  rw [lowLt, he, listLtb_irrefl] at h1
  exact absurd h1 (by simp)

/-! ## Association lists with JavaScript object and Map update semantics

A JavaScript object (and Map) keeps a key at its original position when the
key is assigned again, and appends new keys at the end; delete removes the
key. Object.keys returns keys in that order. -/

def aLookup {κ ν : Type} [BEq κ] (m : List (κ × ν)) (k : κ) : Option ν :=
  (m.find? (fun kv => kv.1 == k)).map (fun kv => kv.2)

def aSet {κ ν : Type} [BEq κ] : List (κ × ν) → κ → ν → List (κ × ν)
  | [], k, v => [(k, v)]
  | (a, b) :: m, k, v => if a == k then (k, v) :: m else (a, b) :: aSet m k v

def aDel {κ ν : Type} [BEq κ] (m : List (κ × ν)) (k : κ) : List (κ × ν) :=
  m.filter (fun kv => kv.1 != k)

theorem aLookup_cons {κ ν : Type} [BEq κ] (a : κ) (b : ν) (m : List (κ × ν)) (q : κ) :
    aLookup ((a, b) :: m) q = if a == q then some b else aLookup m q := by
  by_cases h : (a == q) = true
  · simp [aLookup, List.find?, h]
  · simp only [Bool.not_eq_true] at h
    simp [aLookup, List.find?, h]

theorem aLookup_aSet_self {κ ν : Type} [BEq κ] [LawfulBEq κ]
    (m : List (κ × ν)) (k : κ) (v : ν) :
    aLookup (aSet m k v) k = some v := by
  induction m with
  | nil => simp [aSet, aLookup, List.find?]
  | cons ab m ih =>
    obtain ⟨a, b⟩ := ab
    by_cases hak : (a == k) = true
    · rw [aSet, if_pos hak, aLookup_cons, if_pos (by simp)]
    · rw [aSet, if_neg hak, aLookup_cons, if_neg (by simp_all), ih]

theorem aLookup_aSet_ne {κ ν : Type} [BEq κ] [LawfulBEq κ]
    (m : List (κ × ν)) (k q : κ) (v : ν) (hq : q ≠ k) :
    aLookup (aSet m k v) q = aLookup m q := by
  induction m with
  | nil =>
    rw [aSet, aLookup_cons, if_neg (by simpa using fun h => hq h.symm)]
  | cons ab m ih =>
    obtain ⟨a, b⟩ := ab
    by_cases hak : (a == k) = true
    · have hak2 : a = k := by simpa using hak
      rw [aSet, if_pos hak, aLookup_cons, if_neg (by simpa using fun h => hq h.symm),
        aLookup_cons, if_neg (by simp [hak2]; exact fun h => hq h.symm)]
    · rw [aSet, if_neg hak, aLookup_cons, aLookup_cons, ih]

theorem aLookup_aDel_self {κ ν : Type} [BEq κ] [LawfulBEq κ]
    (m : List (κ × ν)) (k : κ) :
    aLookup (aDel m k) k = none := by
  induction m with
  | nil => simp [aDel, aLookup]
  | cons ab m ih =>
    obtain ⟨a, b⟩ := ab
    by_cases hak : (a == k) = true
    · have hak2 : a = k := by simpa using hak
      subst hak2
      simpa [aDel, List.filter] using ih
    · have : (a != k) = true := by simpa using hak
      rw [aDel, List.filter_cons, if_pos this, aLookup_cons, if_neg hak]
      exact ih

theorem aLookup_aDel_ne {κ ν : Type} [BEq κ] [LawfulBEq κ]
    (m : List (κ × ν)) (k q : κ) (hq : q ≠ k) :
    aLookup (aDel m k) q = aLookup m q := by
  induction m with
  | nil => simp [aDel]
  | cons ab m ih =>
    obtain ⟨a, b⟩ := ab
    by_cases hak : (a == k) = true
    · have hak2 : a = k := by simpa using hak
      subst hak2
      rw [aDel, List.filter_cons, if_neg (by simp), aLookup_cons,
        if_neg (by simpa using fun h => hq h.symm)]
      exact ih
    · have h2 : (a != k) = true := by simpa using hak
      by_cases haq : (a == q) = true
      · rw [aDel, List.filter_cons, if_pos h2, aLookup_cons, if_pos haq,
          aLookup_cons, if_pos haq]
      · rw [aDel, List.filter_cons, if_pos h2, aLookup_cons, if_neg haq,
          aLookup_cons, if_neg haq]
        exact ih

theorem aLookup_isSome_iff_mem_keys {κ ν : Type} [BEq κ] [LawfulBEq κ]
    (m : List (κ × ν)) (k : κ) :
    (aLookup m k).isSome = true ↔ k ∈ m.map Prod.fst := by
  induction m with
  | nil => simp [aLookup]
  | cons ab m ih =>
    obtain ⟨a, b⟩ := ab
    by_cases hak : a = k
    · subst hak
      simp [aLookup, List.find?]
    · have h2 : ¬(a == k) = true := by simpa using hak
      simp only [aLookup, List.find?, h2, List.map_cons, List.mem_cons]
      rw [show ((m.find? fun kv => kv.1 == k).map fun kv => kv.2) = aLookup m k from rfl]
      constructor
      · intro h; exact Or.inr (ih.mp h)
      · rintro (h | h)
        · exact absurd h.symm hak
        · exact ih.mpr h

/-! ## The virtual filesystem store (src/src/create-file-system.ts)

Entries are Dir or File; File carries its stored value (the reactive signal
cell is modelled by the stored value itself: writeFile on an existing File
updates the value in place). -/

inductive DirEnt (T : Type) where
  | dir : DirEnt T
  | file (value : T) : DirEnt T
deriving DecidableEq, Repr

abbrev Store (T : Type) := List (String × DirEnt T)

def lookupStore {T : Type} (files : Store T) (k : String) : Option (DirEnt T) :=
  aLookup files k

/-- fs.exists(path): raw key membership, no normalization. -/
def existsPath {T : Type} (files : Store T) (k : String) : Bool :=
  (lookupStore files k).isSome

def keysOf {T : Type} (files : Store T) : List String := files.map Prod.fst

def setEntry {T : Type} (files : Store T) (k : String) (v : DirEnt T) : Store T :=
  aSet files k v

def delEntry {T : Type} (files : Store T) (k : String) : Store T := aDel files k

/-- The prefixes checked by assertPathExists: parts.slice(0, index+1).join for
each index of the split path. -/
def pathPrefixList (path : String) : List String :=
  (List.range (segsOf path).length).map (fun i => ⟨joinSegs ((segsOf path).take (i + 1))⟩)

/-- assertPathExists: every nonempty prefix of the path is a stored key
(the empty prefix is dropped by filter(Boolean)). -/
def assertPathExists {T : Type} (files : Store T) (path : String) : Bool :=
  ((pathPrefixList path).filter (fun q => q != "")).all (fun q => existsPath files q)

inductive FsErr where
  | pathNotFound
  | pathAlreadyExists
  | pathIsDirectory
  | dirNotEmpty
deriving DecidableEq, Repr

/-- fs.mkdir. With the recursive option the original iterates
parts.forEach((_, index) => set(parts.slice(0, index).join('/'), dir)),
creating the prefixes of length 0 .. parts.length - 1. -/
def mkdir {T : Type} (files : Store T) (path : String) (recursive : Bool) :
    Except FsErr (Store T) :=
  let path := normPath path
  if recursive then
    Except.ok ((List.range (segsOf path).length).foldl
      (fun st i => setEntry st ⟨joinSegs ((segsOf path).take i)⟩ DirEnt.dir) files)
  else if assertPathExists files (getParent path) then
    Except.ok (setEntry files path DirEnt.dir)
  else Except.error FsErr.pathNotFound

/-- fs.writeFile: requires the parent chain; a Dir at the path is an error;
otherwise create the File or update its value in place. -/
def writeFile {T : Type} (files : Store T) (path : String) (v : T) :
    Except FsErr (Store T) :=
  let path := normPath path
  if assertPathExists files (getParent path) then
    match lookupStore files path with
    | some DirEnt.dir => Except.error FsErr.pathIsDirectory
    | _ => Except.ok (setEntry files path (DirEnt.file v))
  else Except.error FsErr.pathNotFound

/-- fs.rm: the emptiness check and the deletion filter both use the raw
substring test value.includes(path) of the original. -/
def rm {T : Type} (files : Store T) (path : String) (force recursive : Bool) :
    Except FsErr (Store T) :=
  let path := normPath path
  if !force && !assertPathExists files path then Except.error FsErr.pathNotFound
  else if !recursive
      && (keysOf files).any (fun k => k != path && strContains k path)
      && !force then
    Except.error FsErr.dirNotEmpty
  else Except.ok (files.filter (fun kv => !(strContains kv.1 path)))

/-- The relabel condition of fs.rename:
PathUtils.isAncestor(path, previous) || path === previous. -/
def matchesRen (previous k : String) : Bool := isAncestor k previous || k == previous

/-- The Object.keys(dirEnts).forEach body of fs.rename, folded over the
pre-state key list: for each matching key move its entry (draft read, set at
the replaced path, delete the old key). A missing draft entry cannot occur on
stores with distinct keys; it is modelled as a no-op. -/
def renameGo {T : Type} (previous next : String) :
    List String → Store T → Store T
  | [], files => files
  | p :: rest, files =>
    if matchesRen previous p then
      match lookupStore files p with
      | some ent =>
        renameGo previous next rest
          (delEntry (setEntry files (strReplaceFirst p previous next) ent) p)
      | none => renameGo previous next rest files
    else renameGo previous next rest files

/-- fs.rename: error if the target exists; silent no-op if the source does
not; otherwise relabel every matching key of the pre-state. -/
def rename {T : Type} (files : Store T) (previous next : String) :
    Except FsErr (Store T) :=
  let previous := normPath previous
  let next := normPath next
  if existsPath files next then Except.error FsErr.pathAlreadyExists
  else if existsPath files previous then
    Except.ok (renameGo previous next (keysOf files) files)
  else Except.ok files

/-! ## Operation sequences over the store -/

inductive FsOp (T : Type) where
  | mkdirOp (path : String) (recursive : Bool)
  | writeOp (path : String) (value : T)
  | renameOp (src dst : String)
  | rmOp (path : String) (force recursive : Bool)
deriving DecidableEq, Repr

def FsOp.isRenameOp {T : Type} : FsOp T → Bool
  | FsOp.renameOp _ _ => true
  | _ => false

/-- Run one operation; a raised error leaves the store unchanged (each
operation of the original performs its checks before any mutation). -/
def applyFsOp {T : Type} (files : Store T) : FsOp T → Store T
  | FsOp.mkdirOp p r =>
    match mkdir files p r with
    | Except.ok s => s
    | Except.error _ => files
  | FsOp.writeOp p v =>
    match writeFile files p v with
    | Except.ok s => s
    | Except.error _ => files
  | FsOp.renameOp a b =>
    match rename files a b with
    | Except.ok s => s
    | Except.error _ => files
  | FsOp.rmOp p f r =>
    match rm files p f r with
    | Except.ok s => s
    | Except.error _ => files

def runFsOps {T : Type} (ops : List (FsOp T)) : Store T :=
  ops.foldl applyFsOp []

/-! ## The identity registry of the tree controller (src/src/file-tree/index.tsx)

State of the ID generation middleware: the id allocator (nextId and the
free-list, popped from the end), the path-to-node map and the id-to-path map.
The scheduled release callbacks registered through onCleanup/queueMicrotask
are reactive-framework effects outside these state transitions. -/

structure RNode where
  id : Nat
  refCount : Nat
deriving DecidableEq, Repr

structure Registry where
  nextId : Nat
  freeIds : List Nat
  nodeMap : List (String × RNode)
  idToPathMap : List (Nat × String)
deriving DecidableEq, Repr

def emptyRegistry : Registry := ⟨0, [], [], []⟩

def allocId (r : Registry) : Nat × Registry :=
  match r.freeIds.getLast? with
  | some i => (i, { r with freeIds := r.freeIds.dropLast })
  | none => (r.nextId, { r with nextId := r.nextId + 1 })

/-- obtainId: reuse the tracked node (incrementing its interest count) or
allocate a fresh id and create the bidirectional binding. -/
def obtainId (path : String) (r : Registry) : Nat × Registry :=
  match aLookup r.nodeMap path with
  | some node =>
    (node.id, { r with nodeMap := aSet r.nodeMap path ⟨node.id, node.refCount + 1⟩ })
  | none =>
    let idr := allocId r
    (idr.1, { idr.2 with
      nodeMap := aSet idr.2.nodeMap path ⟨idr.1, 1⟩,
      idToPathMap := aSet idr.2.idToPathMap idr.1 path })

/-- beforeRename: rebind the node of oldPath (and only of oldPath) to newPath. -/
def beforeRename (oldPath newPath : String) (r : Registry) : Registry :=
  match aLookup r.nodeMap oldPath with
  | none => r
  | some node =>
    { r with
      nodeMap := aSet (aDel r.nodeMap oldPath) newPath node,
      idToPathMap := aSet r.idToPathMap node.id newPath }

/-- idToPath lookup against the registry. -/
def idToPath (i : Nat) (r : Registry) : Option String := aLookup r.idToPathMap i

/-! ## Tree controller state -/

/-- A selection range: start path and optional end path. -/
abbrev SelRange := String × Option String

structure TreeState (T : Type) where
  reg : Registry
  store : Store T
  expandedDirs : List String
  selectedRanges : List SelRange
  focused : Option String
deriving DecidableEq, Repr

/-- selectDirEnt: append a new unterminated range. -/
def selectDirEnt (path : String) (ranges : List SelRange) : List SelRange :=
  ranges ++ [(path, none)]

/-- shiftSelectDirEnt: replace the end of the most recent range, or start a
new single range when none exists. -/
def shiftSelectDirEnt (path : String) (ranges : List SelRange) : List SelRange :=
  match ranges.getLast? with
  | some last => ranges.dropLast ++ [(last.1, some path)]
  | none => [(path, none)]

/-- JavaScript Array.prototype.findIndex: first index or -1. -/
def findIndexJs (x : String) : List String → Int
  | [] => -1
  | y :: l =>
    if y == x then 0
    else
      let r := findIndexJs x l
      if r < 0 then -1 else r + 1

/-- JavaScript Array.prototype.slice with its negative-index clamping. -/
def jsSlice {α : Type} (l : List α) (s e : Int) : List α :=
  let n : Int := l.length
  let lo := if s < 0 then max (n + s) 0 else min s n
  let hi := if e < 0 then max (n + e) 0 else min e n
  (l.drop lo.toNat).take (hi - lo).toNat

/-- Resolve one selection range against the current flat order: a terminated
range denotes the slice between its two endpoints (in either order),
inclusive; an unterminated range denotes its single start path. -/
def resolveRange (flat : List String) (r : SelRange) : List String :=
  match r.2 with
  | some e =>
    let si := findIndexJs r.1 flat
    let ei := findIndexJs e flat
    jsSlice flat (min si ei) (max si ei + 1)
  | none => [r.1]

/-- Insertion sort by a boolean comparator, modelling Array.prototype.sort
with a comparator that never reports equality. -/
def insertBy (lt : String → String → Bool) (x : String) :
    List String → List String
  | [] => [x]
  | y :: ys => if lt x y then x :: y :: ys else y :: insertBy lt x ys

def sortByLt (lt : String → String → Bool) (l : List String) : List String :=
  l.foldr (insertBy lt) []

/-- The raw a < b string comparator of the selectedDirEnts memo. -/
def rawLt (a b : String) : Bool := listLtb a.data b.data

/-- selectedDirEnts: resolve every range against the flat order and sort. -/
def selectedDirEnts (ranges : List SelRange) (flat : List String) : List String :=
  sortByLt rawLt (ranges.map (resolveRange flat)).flatten

/-! ## renameDirEnt and the move transform -/

/-- renameDirEnt: beforeRename, then fs.rename, then rebase of the expanded
dirs and selection ranges, then focus of the new path; all in one batch. An
fs.rename error aborts the batch after the registry mutation. -/
def renameDirEnt {T : Type} (oldPath newPath : String) (st : TreeState T) :
    Option FsErr × TreeState T :=
  let reg2 := beforeRename oldPath newPath st.reg
  match rename st.store oldPath newPath with
  | Except.error e => (some e, { st with reg := reg2 })
  | Except.ok store2 =>
    (none,
      { reg := reg2
        store := store2
        expandedDirs := st.expandedDirs.map (fun d =>
          if d == oldPath then newPath else rebase d oldPath newPath)
        selectedRanges := st.selectedRanges.map (fun r =>
          match r.2 with
          | some e => (rebase r.1 oldPath newPath, some (rebase e oldPath newPath))
          | none => (rebase r.1 oldPath newPath, none))
        focused := some newPath })

structure Transform where
  oldPath : String
  newPath : String
  shouldRename : Bool
deriving DecidableEq, Repr

/-- The destination computation of moveSelectedDirEnts: components joined by
'/' after dropping empty ones (filter(Boolean)). -/
def destOf (target : String) (ancOpt : Option String) (oldPath : String) : String :=
  let comps :=
    match ancOpt with
    | some anc => [target, getName anc, strReplaceFirst oldPath (anc ++ "/") ""]
    | none => [target, getName oldPath]
  ⟨joinSegs ((comps.filter (fun c => c != "")).map String.data)⟩

/-- The per-path transform computation: for each path of the sorted selection,
find the first already-processed path that is its ancestor. -/
def transformsGo (target : String) :
    List String → List String → List Transform
  | _, [] => []
  | processed, p :: rest =>
    let anc := processed.find? (fun q => isAncestor p q)
    ⟨p, destOf target anc p, anc.isNone⟩ ::
      transformsGo target (processed ++ [p]) rest

def transformsOf (selection : List String) (target : String) : List Transform :=
  transformsGo target [] (sortByLt lowLt selection)

inductive TreeErr where
  | invalidMove
  | pathsAlreadyExist (paths : List String)
  | fsFailure (e : FsErr)
deriving DecidableEq, Repr

/-- expandDir: append unless it is the base or already expanded. -/
def expandDir (base path : String) (dirs : List String) : List String :=
  if path != base && !(dirs.contains path) then dirs ++ [path] else dirs

/-- The apply phase of the move: rename each transform that has no selected
ancestor, in order; an error thrown by a rename aborts the remaining ones. -/
def applyRenames {T : Type} :
    List Transform → TreeState T → Option FsErr × TreeState T
  | [], st => (none, st)
  | t :: rest, st =>
    if t.shouldRename then
      match renameDirEnt t.oldPath t.newPath st with
      | (some e, st2) => (some e, st2)
      | (none, st2) => applyRenames rest st2
    else applyRenames rest st

/-- The colliding destinations collected by the pre-check of the move. -/
def moveCollisions {T : Type} (st : TreeState T)
    (selection : List String) (target : String) : List Transform :=
  (transformsOf selection target).filter (fun t => existsPath st.store t.newPath)

/-- moveSelectedDirEnts: validate (no selected path may equal the target or be
a strict ancestor of it), compute the transforms, pre-check all destinations,
then apply in one batch: rewrite expanded dirs and selection ranges, rename
the transforms without a selected ancestor, and expand the target. -/
def moveSelectedDirEnts {T : Type} (selection : List String)
    (target base : String) (st : TreeState T) :
    Option TreeErr × TreeState T :=
  match selection.find? (fun s => s == target || isAncestor target s) with
  | some _ => (some TreeErr.invalidMove, st)
  | none =>
    let transforms := transformsOf selection target
    let collisions := moveCollisions st selection target
    if collisions.isEmpty then
      let st1 : TreeState T :=
        { st with
          expandedDirs := st.expandedDirs.map (fun dir =>
            match transforms.find? (fun t => t.oldPath == dir) with
            | some t => t.newPath
            | none => dir)
          selectedRanges := transforms.map (fun t => (t.newPath, none)) }
      match applyRenames transforms st1 with
      | (some e, st2) => (some (TreeErr.fsFailure e), st2)
      | (none, st2) =>
        (none,
          { st2 with
            expandedDirs :=
              if st2.expandedDirs.contains target then st2.expandedDirs
              else expandDir base target st2.expandedDirs })
    else (some (TreeErr.pathsAlreadyExist (collisions.map Transform.newPath)), st)

/-- The proper ancestors of a path as produced by iteratively stripping the
last segment, ending at the root (the empty string). -/
def properAncestors (p : String) : List String :=
  (List.range (segsOf p).length).map (fun i => ⟨joinSegs ((segsOf p).take i)⟩)

/-- The amended invariant of claim C2: every nonempty proper ancestor of a
stored path is itself stored. -/
def ancClosed {T : Type} (files : Store T) : Prop :=
  ∀ k, existsPath files k = true →
    ∀ a ∈ properAncestors k, a ≠ "" → existsPath files a = true

/-! ## Supporting lemmas -/

theorem aLookup_some_mem {κ ν : Type} [BEq κ] [LawfulBEq κ]
    {m : List (κ × ν)} {k : κ} {v : ν} (h : aLookup m k = some v) : (k, v) ∈ m := by
  induction m with
  | nil => simp [aLookup] at h
  | cons ab m ih =>
    obtain ⟨a, b⟩ := ab
    rw [aLookup_cons] at h
    by_cases hak : (a == k) = true
    · rw [if_pos hak] at h
      injection h with h
      have : a = k := by simpa using hak
      subst this
      subst h
      exact List.mem_cons_self _ _
    · rw [if_neg hak] at h
      exact List.mem_cons_of_mem _ (ih h)

theorem isAncestor_ne {p a : String} (h : isAncestor p a = true) : p ≠ a := by
  intro he
  rw [isAncestor, if_pos (beq_iff_eq.mpr he)] at h
  exact absurd h (by simp)

theorem renameDirEnt_reg {T : Type} (o n : String) (st : TreeState T) :
    (renameDirEnt o n st).2.reg = beforeRename o n st.reg := by
  rw [renameDirEnt]
  cases rename st.store o n <;> rfl

/-! ## Claim C3 -/

/-- Claim C3, evaluated at the failing input: mkdir with the recursive option
on the empty store with path a/b stores only the proper prefixes (the root
entry and a); exists(a/b) is false afterwards, against the claim that every
ancestor of P including P itself exists. -/
theorem C3_mkdir_recursive_eval :
    existsPath (applyFsOp ([] : Store Nat) (FsOp.mkdirOp "a/b" true)) "a/b" = false
    ∧ existsPath (applyFsOp ([] : Store Nat) (FsOp.mkdirOp "a/b" true)) "a" = true
    ∧ existsPath (applyFsOp ([] : Store Nat) (FsOp.mkdirOp "a/b" true)) "" = true := by
  decide

/-! ## Claim C10 -/

/-- Claim C10: for a path whose parent chain is stored and which currently
holds a File, non-recursive mkdir does not fail and silently replaces the
File entry with a Dir, discarding the stored value. -/
theorem C10_mkdir_over_file {T : Type} (files : Store T) (P : String) (v : T)
    (hpar : assertPathExists files (getParent (normPath P)) = true)
    (_hfile : lookupStore files (normPath P) = some (DirEnt.file v)) :
    mkdir files P false = Except.ok (setEntry files (normPath P) DirEnt.dir)
    ∧ lookupStore (setEntry files (normPath P) DirEnt.dir) (normPath P) =
        some DirEnt.dir := by
  constructor
  · simp [mkdir, hpar]
  · exact aLookup_aSet_self files (normPath P) DirEnt.dir

theorem C10_mkdir_over_file_witness :
    mkdir [("a", DirEnt.file 3)] "a" false =
      Except.ok (setEntry [("a", DirEnt.file 3)] (normPath "a") DirEnt.dir)
    ∧ lookupStore (setEntry [("a", DirEnt.file 3)] (normPath "a") DirEnt.dir)
        (normPath "a") = some DirEnt.dir :=
  C10_mkdir_over_file [("a", DirEnt.file 3)] "a" 3 (by decide) (by decide)

/-! ## Claim C7 -/

/-- Claim C7: for normalized paths, rename(A, B) fails with PathAlreadyExists
when B is stored (and the store is unchanged, as run through applyFsOp), and
when neither A nor B is stored it performs no mutation and does not throw. -/
theorem C7_rename_errors {T : Type} (files : Store T) (A B : String)
    (hA : normPath A = A) (hB : normPath B = B) :
    (existsPath files B = true →
      rename files A B = Except.error FsErr.pathAlreadyExists
      ∧ applyFsOp files (FsOp.renameOp A B) = files)
    ∧ (existsPath files B = false → existsPath files A = false →
      rename files A B = Except.ok files
      ∧ applyFsOp files (FsOp.renameOp A B) = files) := by
  constructor
  · intro hexB
    have h1 : rename files A B = Except.error FsErr.pathAlreadyExists := by
      simp [rename, hA, hB, hexB]
    exact ⟨h1, by simp [applyFsOp, h1]⟩
  · intro hexB hexA
    have h1 : rename files A B = Except.ok files := by
      simp [rename, hA, hB, hexB, hexA]
    exact ⟨h1, by simp [applyFsOp, h1]⟩

theorem C7_rename_errors_witness :
    (rename [("b", (DirEnt.dir : DirEnt Nat))] "a" "b" =
        Except.error FsErr.pathAlreadyExists
      ∧ applyFsOp [("b", (DirEnt.dir : DirEnt Nat))] (FsOp.renameOp "a" "b") =
        [("b", DirEnt.dir)])
    ∧ (rename [("c", (DirEnt.dir : DirEnt Nat))] "a" "b" =
        Except.ok [("c", DirEnt.dir)]
      ∧ applyFsOp [("c", (DirEnt.dir : DirEnt Nat))] (FsOp.renameOp "a" "b") =
        [("c", DirEnt.dir)]) :=
  ⟨(C7_rename_errors [("b", DirEnt.dir)] "a" "b" (by decide) (by decide)).1 (by decide),
   (C7_rename_errors [("c", DirEnt.dir)] "a" "b" (by decide) (by decide)).2
     (by decide) (by decide)⟩

/-! ## Claim C1 -/

/-- Claim C1, refuted at a concrete input: obtainId on a/x yields id 0; after
rename(a, b) through the controller, idToPath(0) still returns a/x, not b/x
as the claim demands (beforeRename rebinds the exact old path only, never the
descendants of the renamed directory). -/
theorem C1_counterexample :
    (obtainId "a/x" emptyRegistry).1 = 0
    ∧ isAncestor "a/x" "a" = true
    ∧ idToPath 0 (renameDirEnt "a" "b"
        (⟨(obtainId "a/x" emptyRegistry).2,
          [("a", DirEnt.dir), ("a/x", DirEnt.dir)], [], [], none⟩ : TreeState Nat)).2.reg
      = some "a/x"
    ∧ (some "a/x" ≠ some "b/x") := by
  decide

/-- Claim C1 as amended: a rename of A to B through the controller rebinds
only the id bound to A itself (when A is tracked, its id afterwards maps to
B); the binding of a tracked strict descendant p of A is untouched, so its id
still maps to p rather than to p with the A prefix replaced by B. -/
theorem C1_amended {T : Type} (st : TreeState T) (p A B : String) (n : RNode)
    (_hnode : aLookup st.reg.nodeMap p = some n)
    (hbind : aLookup st.reg.idToPathMap n.id = some p)
    (hanc : isAncestor p A = true)
    (huniq : ∀ qm ∈ st.reg.nodeMap, qm.2.id = n.id → qm.1 = p) :
    idToPath n.id (renameDirEnt A B st).2.reg = some p
    ∧ (∀ nA, aLookup st.reg.nodeMap A = some nA →
        idToPath nA.id (renameDirEnt A B st).2.reg = some B) := by
  rw [renameDirEnt_reg A B st]
  cases hA0 : aLookup st.reg.nodeMap A with
  | none =>
    simp only [beforeRename, hA0]
    constructor
    · exact hbind
    · intro nA hnA
      cases hnA
  | some nA0 =>
    simp only [beforeRename, hA0]
    have hne : nA0.id ≠ n.id := by
      intro he
      have hmem := aLookup_some_mem hA0
      have hAp := huniq (A, nA0) hmem he
      exact (isAncestor_ne hanc) hAp.symm
    constructor
    · show aLookup (aSet st.reg.idToPathMap nA0.id B) n.id = some p
      rw [aLookup_aSet_ne st.reg.idToPathMap nA0.id n.id B (fun h => hne h.symm)]
      exact hbind
    · intro nA hnA
      injection hnA with h
      subst h
      show aLookup (aSet st.reg.idToPathMap nA0.id B) nA0.id = some B
      exact aLookup_aSet_self _ _ _

theorem C1_amended_witness :
    idToPath 0 (renameDirEnt "a" "b"
      (⟨(obtainId "a" (obtainId "a/x" emptyRegistry).2).2,
        [("a", DirEnt.dir), ("a/x", DirEnt.dir)], [], [], none⟩ : TreeState Nat)).2.reg
      = some "a/x"
    ∧ idToPath 1 (renameDirEnt "a" "b"
      (⟨(obtainId "a" (obtainId "a/x" emptyRegistry).2).2,
        [("a", DirEnt.dir), ("a/x", DirEnt.dir)], [], [], none⟩ : TreeState Nat)).2.reg
      = some "b" := by
  have h := C1_amended
    (⟨(obtainId "a" (obtainId "a/x" emptyRegistry).2).2,
      [("a", DirEnt.dir), ("a/x", DirEnt.dir)], [], [], none⟩ : TreeState Nat)
    "a/x" "a" "b" ⟨0, 1⟩ (by decide) (by decide) (by decide) (by decide)
  exact ⟨h.1, h.2 ⟨1, 1⟩ (by decide)⟩

/-! ## Counterexamples to claims C2, C4 and C8 -/

/-- Claim C2, refuted at concrete inputs: rename can orphan a subtree (b/c
stored while its proper ancestor b is not); writeFile can create a child
under a File (the ancestor a is stored but is not a Dir); and the root path
produced by stripping the last segment is never stored by writeFile. -/
theorem C2_counterexample :
    (existsPath (runFsOps [FsOp.mkdirOp "a" false,
        (FsOp.renameOp "a" "b/c" : FsOp Nat)]) "b/c" = true
      ∧ existsPath (runFsOps [FsOp.mkdirOp "a" false,
          (FsOp.renameOp "a" "b/c" : FsOp Nat)]) "b" = false
      ∧ "b" ∈ properAncestors "b/c")
    ∧ (lookupStore (runFsOps [(FsOp.writeOp "a" 0 : FsOp Nat),
          FsOp.writeOp "a/b" 1]) "a" = some (DirEnt.file 0)
      ∧ existsPath (runFsOps [(FsOp.writeOp "a" 0 : FsOp Nat),
          FsOp.writeOp "a/b" 1]) "a/b" = true
      ∧ "a" ∈ properAncestors "a/b")
    ∧ (existsPath (runFsOps [(FsOp.writeOp "a" 0 : FsOp Nat)]) "a" = true
      ∧ existsPath (runFsOps [(FsOp.writeOp "a" 0 : FsOp Nat)]) "" = false
      ∧ "" ∈ properAncestors "a") := by
  decide

/-- Claim C4, refuted at a concrete input: rm(a, recursive) also deletes the
stored path ab, which is neither a nor a descendant of a — the deletion
filter is the substring test value.includes(path). -/
theorem C4_counterexample :
    existsPath (runFsOps [FsOp.mkdirOp "a" false, (FsOp.writeOp "ab" 5 : FsOp Nat)])
      "ab" = true
    ∧ existsPath (runFsOps [FsOp.mkdirOp "a" false, (FsOp.writeOp "ab" 5 : FsOp Nat),
        FsOp.rmOp "a" false true]) "ab" = false
    ∧ ("ab" : String) ≠ "a"
    ∧ isAncestor "ab" "a" = false := by
  decide

/-- Claim C8, refuted at a concrete input: with the store reached by
mkdir(c), rename(c, b/x), mkdir(a), writeFile(a/x, 7) — in which b/x is a Dir
unrelated to a — rename(a, b) succeeds although b does not exist, and the
relabelled a/x overwrites the unrelated entry b/x, which is not left
untouched. -/
theorem C8_counterexample :
    lookupStore (runFsOps [FsOp.mkdirOp "c" false, FsOp.renameOp "c" "b/x",
      FsOp.mkdirOp "a" false, (FsOp.writeOp "a/x" 7 : FsOp Nat)]) "b/x"
      = some DirEnt.dir
    ∧ matchesRen "a" "b/x" = false
    ∧ existsPath (runFsOps [FsOp.mkdirOp "c" false, FsOp.renameOp "c" "b/x",
        FsOp.mkdirOp "a" false, (FsOp.writeOp "a/x" 7 : FsOp Nat)]) "a" = true
    ∧ existsPath (runFsOps [FsOp.mkdirOp "c" false, FsOp.renameOp "c" "b/x",
        FsOp.mkdirOp "a" false, (FsOp.writeOp "a/x" 7 : FsOp Nat)]) "b" = false
    ∧ lookupStore (runFsOps [FsOp.mkdirOp "c" false, FsOp.renameOp "c" "b/x",
        FsOp.mkdirOp "a" false, (FsOp.writeOp "a/x" 7 : FsOp Nat),
        FsOp.renameOp "a" "b"]) "b/x" = some (DirEnt.file 7) := by
  decide

/-! ## Claim C4 (amended) -/

theorem strContains_of_matches {k P : String}
    (h : k = P ∨ isAncestor k P = true) : strContains k P = true := by
  rcases h with rfl | h
  · exact containsSub_of_isPrefix _ _ ((isPrefixOf_iff_append _ _).mpr ⟨[], by simp⟩)
  · rw [isAncestor_iff] at h
    obtain ⟨s, hs⟩ := h
    exact containsSub_of_isPrefix _ _ ((isPrefixOf_iff_append _ _).mpr ⟨'/' :: s, hs⟩)

theorem lookupStore_filter_del {T : Type} (files : Store T) (P q : String)
    (h : strContains q P = true) :
    lookupStore (files.filter (fun kv => !(strContains kv.1 P))) q = none := by
  induction files with
  | nil => rfl
  | cons kv rest ih =>
    obtain ⟨a, b⟩ := kv
    by_cases ha : strContains a P = true
    · rw [List.filter_cons, if_neg (by simp [ha])]
      exact ih
    · have ha2 : strContains a P = false := by simpa using ha
      rw [List.filter_cons, if_pos (by simp [ha2])]
      show aLookup ((a, b) :: rest.filter (fun kv => !(strContains kv.1 P))) q = none
      rw [aLookup_cons, if_neg ?hne]
      · exact ih
      case hne =>
        simp only [beq_iff_eq]
        intro he
        rw [he, h] at ha2
        exact absurd ha2 (by simp)

theorem lookupStore_filter_keep {T : Type} (files : Store T) (P q : String)
    (h : strContains q P = false) :
    lookupStore (files.filter (fun kv => !(strContains kv.1 P))) q =
      lookupStore files q := by
  induction files with
  | nil => rfl
  | cons kv rest ih =>
    obtain ⟨a, b⟩ := kv
    by_cases ha : strContains a P = true
    · have hne : ¬(a == q) = true := by
        simp only [beq_iff_eq]
        intro he
        rw [he, h] at ha
        exact absurd ha (by simp)
      rw [List.filter_cons, if_neg (by simp [ha]), ih]
      show lookupStore rest q = aLookup ((a, b) :: rest) q
      rw [aLookup_cons, if_neg hne]
      rfl
    · have ha2 : strContains a P = false := by simpa using ha
      rw [List.filter_cons, if_pos (by simp [ha2])]
      show aLookup ((a, b) :: rest.filter (fun kv => !(strContains kv.1 P))) q =
        aLookup ((a, b) :: rest) q
      rw [aLookup_cons, aLookup_cons]
      by_cases haq : (a == q) = true
      · rw [if_pos haq, if_pos haq]
      · rw [if_neg haq, if_neg haq]
        exact ih

/-- Claim C4 as amended: rm with the recursive option on a normalized stored
path P (ancestor chain present) succeeds and deletes, in one update, exactly
those stored entries whose key contains P as a substring — P itself and every
descendant among them — while every entry whose key does not contain P keeps
its binding unchanged. -/
theorem C4_amended {T : Type} (files : Store T) (P : String)
    (hnorm : normPath P = P) (hchain : assertPathExists files P = true) :
    rm files P false true =
      Except.ok (files.filter (fun kv => !(strContains kv.1 P)))
    ∧ (∀ K, (K = P ∨ isAncestor K P = true) →
        existsPath (files.filter (fun kv => !(strContains kv.1 P))) K = false)
    ∧ (∀ K, strContains K P = false →
        lookupStore (files.filter (fun kv => !(strContains kv.1 P))) K =
          lookupStore files K) := by
  refine ⟨?_, ?_, ?_⟩
  · simp [rm, hnorm, hchain]
  · intro K hK
    rw [existsPath, lookupStore_filter_del files P K (strContains_of_matches hK)]
    rfl
  · intro K hK
    exact lookupStore_filter_keep files P K hK

theorem C4_amended_witness :
    rm [("a", DirEnt.dir), ("a/x", (DirEnt.file 1 : DirEnt Nat)), ("b", DirEnt.dir)]
        "a" false true
      = Except.ok ([("a", DirEnt.dir), ("a/x", DirEnt.file 1), ("b", DirEnt.dir)].filter
          (fun kv => !(strContains kv.1 "a")))
    ∧ existsPath ([("a", DirEnt.dir), ("a/x", (DirEnt.file 1 : DirEnt Nat)),
        ("b", DirEnt.dir)].filter (fun kv => !(strContains kv.1 "a"))) "a/x" = false
    ∧ lookupStore ([("a", DirEnt.dir), ("a/x", (DirEnt.file 1 : DirEnt Nat)),
        ("b", DirEnt.dir)].filter (fun kv => !(strContains kv.1 "a"))) "b"
      = lookupStore [("a", DirEnt.dir), ("a/x", DirEnt.file 1), ("b", DirEnt.dir)] "b" := by
  have h := C4_amended
    [("a", DirEnt.dir), ("a/x", (DirEnt.file 1 : DirEnt Nat)), ("b", DirEnt.dir)]
    "a" (by decide) (by decide)
  exact ⟨h.1, h.2.1 "a/x" (Or.inr (by decide)), h.2.2 "b" (by decide)⟩

/-! ## Claim C9 -/

theorem insertBy_perm (lt : String → String → Bool) (x : String) (l : List String) :
    List.Perm (insertBy lt x l) (x :: l) := by
  induction l with
  | nil => exact List.Perm.refl _
  | cons y ys ih =>
    rw [insertBy]
    by_cases h : lt x y = true
    · rw [if_pos h]
    · rw [if_neg h]
      exact (List.Perm.cons y ih).trans (List.Perm.swap x y ys)

theorem sortByLt_perm (lt : String → String → Bool) (l : List String) :
    List.Perm (sortByLt lt l) l := by
  induction l with
  | nil => exact List.Perm.refl _
  | cons y ys ih =>
    exact (insertBy_perm lt y (sortByLt lt ys)).trans (List.Perm.cons y ih)

theorem mem_sortByLt (lt : String → String → Bool) (l : List String) (x : String) :
    x ∈ sortByLt lt l ↔ x ∈ l :=
  (sortByLt_perm lt l).mem_iff

/-- Claim C9: over the flat order r1, r2, r3, r4 (pairwise distinct),
select(r1) followed by shiftSelect(r3) resolves to the selected set
containing exactly r1, r2 and r3; a later shiftSelect(r4) replaces the most
recent range's end, resolving to exactly r1, r2, r3 and r4. -/
theorem C9_shift_select (r1 r2 r3 r4 : String)
    (hnd : ([r1, r2, r3, r4] : List String).Nodup) :
    (∀ x, x ∈ selectedDirEnts (shiftSelectDirEnt r3 (selectDirEnt r1 []))
        [r1, r2, r3, r4] ↔ (x = r1 ∨ x = r2 ∨ x = r3))
    ∧ (∀ x, x ∈ selectedDirEnts
        (shiftSelectDirEnt r4 (shiftSelectDirEnt r3 (selectDirEnt r1 [])))
        [r1, r2, r3, r4] ↔ (x = r1 ∨ x = r2 ∨ x = r3 ∨ x = r4)) := by
  simp only [List.nodup_cons, List.mem_cons, List.mem_singleton,
    List.not_mem_nil, or_false, List.nodup_nil, and_true, not_or] at hnd
  obtain ⟨⟨h12, h13, h14⟩, ⟨h23, h24⟩, h34, -⟩ := hnd
  have hsel : selectDirEnt r1 [] = [(r1, none)] := rfl
  have hsh3 : shiftSelectDirEnt r3 [(r1, none)] = [(r1, some r3)] := rfl
  have hsh4 : shiftSelectDirEnt r4 [(r1, some r3)] = [(r1, some r4)] := rfl
  have f1 : findIndexJs r1 [r1, r2, r3, r4] = 0 := by
    simp [findIndexJs]
  have f3 : findIndexJs r3 [r1, r2, r3, r4] = 2 := by
    simp [findIndexJs, h13, h23]
  have f4 : findIndexJs r4 [r1, r2, r3, r4] = 3 := by
    simp [findIndexJs, h14, h24, h34]
  have hr3 : resolveRange [r1, r2, r3, r4] (r1, some r3) = [r1, r2, r3] := by
    rw [resolveRange]
    simp only [f1, f3]
    rw [show min (0 : Int) 2 = 0 from rfl, show max (0 : Int) 2 + 1 = 3 from rfl]
    rfl
  have hr4 : resolveRange [r1, r2, r3, r4] (r1, some r4) = [r1, r2, r3, r4] := by
    rw [resolveRange]
    simp only [f1, f4]
    rw [show min (0 : Int) 3 = 0 from rfl, show max (0 : Int) 3 + 1 = 4 from rfl]
    rfl
  constructor
  · intro x
    rw [hsel, hsh3, selectedDirEnts, mem_sortByLt]
    simp [hr3]
  · intro x
    rw [hsel, hsh3, hsh4, selectedDirEnts, mem_sortByLt]
    simp [hr4]

theorem C9_shift_select_witness :
    ("b" ∈ selectedDirEnts (shiftSelectDirEnt "c" (selectDirEnt "a" []))
        ["a", "b", "c", "d"])
    ∧ ("d" ∈ selectedDirEnts
        (shiftSelectDirEnt "d" (shiftSelectDirEnt "c" (selectDirEnt "a" [])))
        ["a", "b", "c", "d"]) := by
  have h := C9_shift_select "a" "b" "c" "d" (by decide)
  exact ⟨(h.1 "b").mpr (Or.inr (Or.inl rfl)),
    (h.2 "d").mpr (Or.inr (Or.inr (Or.inr rfl)))⟩

/-! ## Claim C6 -/

/-- Claim C6: the move fails InvalidMove when some selected path equals the
target or is a strict ancestor of it, with the state returned unchanged; when
the validation passes but some computed destination already exists, it fails
PathAlreadyExists reporting every colliding destination, again with the state
unchanged — in both failure cases nothing is mutated. -/
theorem C6_move_validation {T : Type} (selection : List String)
    (target base : String) (st : TreeState T) :
    ((∃ s ∈ selection, s = target ∨ isAncestor target s = true) →
      moveSelectedDirEnts selection target base st = (some TreeErr.invalidMove, st))
    ∧ ((∀ s ∈ selection, s ≠ target ∧ isAncestor target s = false) →
      moveCollisions st selection target ≠ [] →
      (moveSelectedDirEnts selection target base st =
        (some (TreeErr.pathsAlreadyExist
          ((moveCollisions st selection target).map Transform.newPath)), st)
      ∧ ∀ t ∈ transformsOf selection target, existsPath st.store t.newPath = true →
          t.newPath ∈ (moveCollisions st selection target).map Transform.newPath)) := by
  constructor
  · rintro ⟨s, hs, hp⟩
    cases hf : selection.find? (fun s => s == target || isAncestor target s) with
    | some u =>
      rw [moveSelectedDirEnts, hf]
    | none =>
      exfalso
      have hforall := List.find?_eq_none.mp hf s hs
      apply hforall
      rcases hp with rfl | hp
      · simp
      · simp [hp]
  · intro hall hcols
    have hf : selection.find? (fun s => s == target || isAncestor target s) = none := by
      rw [List.find?_eq_none]
      intro x hx
      simp [(hall x hx).1, (hall x hx).2]
    have hempty : (moveCollisions st selection target).isEmpty = false := by
      cases h : moveCollisions st selection target with
      | nil => exact absurd h hcols
      | cons a l => rfl
    constructor
    · rw [moveSelectedDirEnts, hf]
      simp only [hempty]
      rfl
    · intro t ht hex
      exact List.mem_map_of_mem _ (List.mem_filter.mpr ⟨ht, hex⟩)

theorem C6_move_validation_witness :
    moveSelectedDirEnts ["a"] "a/b" ""
      (⟨emptyRegistry, [("a", DirEnt.dir), ("a/b", DirEnt.dir), ("t", DirEnt.dir),
        ("t/a", DirEnt.dir)], [], [], none⟩ : TreeState Nat)
      = (some TreeErr.invalidMove,
        (⟨emptyRegistry, [("a", DirEnt.dir), ("a/b", DirEnt.dir), ("t", DirEnt.dir),
          ("t/a", DirEnt.dir)], [], [], none⟩ : TreeState Nat))
    ∧ moveSelectedDirEnts ["a"] "t" ""
      (⟨emptyRegistry, [("a", DirEnt.dir), ("a/b", DirEnt.dir), ("t", DirEnt.dir),
        ("t/a", DirEnt.dir)], [], [], none⟩ : TreeState Nat)
      = (some (TreeErr.pathsAlreadyExist ["t/a"]),
        (⟨emptyRegistry, [("a", DirEnt.dir), ("a/b", DirEnt.dir), ("t", DirEnt.dir),
          ("t/a", DirEnt.dir)], [], [], none⟩ : TreeState Nat)) := by
  constructor
  · exact (C6_move_validation ["a"] "a/b" ""
      (⟨emptyRegistry, [("a", DirEnt.dir), ("a/b", DirEnt.dir), ("t", DirEnt.dir),
        ("t/a", DirEnt.dir)], [], [], none⟩ : TreeState Nat)).1
      ⟨"a", by decide, Or.inr (by decide)⟩
  · exact ((C6_move_validation ["a"] "t" ""
      (⟨emptyRegistry, [("a", DirEnt.dir), ("a/b", DirEnt.dir), ("t", DirEnt.dir),
        ("t/a", DirEnt.dir)], [], [], none⟩ : TreeState Nat)).2
      (by decide) (by decide)).1

/-! ## Claim C2 (amended): the ancestor-closure invariant -/

theorem existsPath_setEntry_iff {T : Type} (files : Store T) (k : String)
    (v : DirEnt T) (q : String) :
    existsPath (setEntry files k v) q = true ↔
      existsPath files q = true ∨ q = k := by
  by_cases hq : q = k
  · subst hq
    rw [existsPath, lookupStore, setEntry, aLookup_aSet_self]
    simp
  · rw [existsPath, lookupStore, setEntry, aLookup_aSet_ne files k q v hq]
    simp [existsPath, lookupStore, hq]

theorem assert_prefixes {T : Type} (files : Store T) (p : String)
    (h : assertPathExists files p = true) :
    ∀ a ∈ pathPrefixList p, a ≠ "" → existsPath files a = true := by
  rw [assertPathExists, List.all_eq_true] at h
  intro a ha hne
  exact h a (List.mem_filter.mpr ⟨ha, by simpa using hne⟩)

theorem segsOf_mk_join (L : List (List Char)) (hne : L ≠ [])
    (hs : ∀ s ∈ L, '/' ∉ s) : segsOf ⟨joinSegs L⟩ = L :=
  splitSegs_joinSegs L hne hs

/-- A nonempty proper ancestor obtained by stripping segments is a strict
string prefix followed by a slash. -/
theorem properAncestors_split {k a : String} (ha : a ∈ properAncestors k)
    (hne : a ≠ "") : ∃ s, k.data = a.data ++ '/' :: s := by
  rw [properAncestors, List.mem_map] at ha
  obtain ⟨i, hi, rfl⟩ := ha
  rw [List.mem_range] at hi
  cases i with
  | zero => exact absurd rfl hne
  | succ j =>
    have htake : (segsOf k).take (j + 1) ≠ [] := by
      rw [Ne, List.take_eq_nil_iff]
      push_neg
      exact ⟨by omega, fun h => splitSegs_ne_nil k.data h⟩
    have hdrop : (segsOf k).drop (j + 1) ≠ [] := by
      rw [Ne, List.drop_eq_nil_iff]
      omega
    refine ⟨joinSegs ((segsOf k).drop (j + 1)), ?_⟩
    have h1 : k.data = joinSegs ((segsOf k).take (j + 1) ++ (segsOf k).drop (j + 1)) := by
      rw [List.take_append_drop, joinSegs_segsOf]
    rw [h1, joinSegs_append _ _ htake hdrop]

/-- A nonempty proper ancestor of p occurs among the prefixes checked by
assertPathExists on the parent of p. -/
theorem properAncestor_mem_parent_prefixes {p a : String}
    (ha : a ∈ properAncestors p) (hne : a ≠ "") :
    a ∈ pathPrefixList (getParent p) := by
  rw [properAncestors, List.mem_map] at ha
  obtain ⟨i, hi, rfl⟩ := ha
  rw [List.mem_range] at hi
  cases i with
  | zero => exact absurd rfl hne
  | succ j =>
    have hlen2 : 2 ≤ (segsOf p).length := by omega
    have hdl_ne : (segsOf p).dropLast ≠ [] := by
      rw [List.dropLast_eq_take, Ne, List.take_eq_nil_iff]
      push_neg
      exact ⟨by omega, fun h => splitSegs_ne_nil p.data h⟩
    have hdl_nos : ∀ s ∈ (segsOf p).dropLast, '/' ∉ s := by
      intro s hs
      exact noSlash_of_mem_splitSegs p.data s
        (by rw [List.dropLast_eq_take] at hs; exact List.take_subset _ _ hs)
    have hsegs : segsOf (getParent p) = (segsOf p).dropLast := by
      rw [getParent]
      exact segsOf_mk_join _ hdl_ne hdl_nos
    rw [pathPrefixList, List.mem_map]
    refine ⟨j, ?_, ?_⟩
    · rw [List.mem_range, hsegs, List.dropLast_eq_take, List.length_take,
        min_eq_left (Nat.sub_le _ _)]
      omega
    · rw [hsegs, List.dropLast_eq_take, List.take_take,
        min_eq_left (by omega : j + 1 ≤ (segsOf p).length - 1)]

theorem exists_foldl_set {T : Type} (files : Store T) (f : Nat → String)
    (l : List Nat) (q : String) :
    existsPath (l.foldl (fun st i => setEntry st (f i) DirEnt.dir) files) q = true ↔
      existsPath files q = true ∨ ∃ i ∈ l, f i = q := by
  induction l generalizing files with
  | nil => simp
  | cons i is ih =>
    rw [List.foldl_cons, ih, existsPath_setEntry_iff]
    constructor
    · rintro ((h | h) | ⟨j, hj, hjq⟩)
      · exact Or.inl h
      · exact Or.inr ⟨i, List.mem_cons_self _ _, h.symm⟩
      · exact Or.inr ⟨j, List.mem_cons_of_mem _ hj, hjq⟩
    · rintro (h | ⟨j, hj, hjq⟩)
      · exact Or.inl (Or.inl h)
      · rcases List.mem_cons.mp hj with rfl | hj2
        · exact Or.inl (Or.inr hjq.symm)
        · exact Or.inr ⟨j, hj2, hjq⟩

theorem existsPath_rmFilter_iff {T : Type} (files : Store T) (P q : String) :
    existsPath (files.filter (fun kv => !(strContains kv.1 P))) q = true ↔
      existsPath files q = true ∧ strContains q P = false := by
  by_cases h : strContains q P = true
  · rw [existsPath, lookupStore_filter_del files P q h]
    simp [h]
  · have h2 : strContains q P = false := by simpa using h
    rw [existsPath, lookupStore_filter_keep files P q h2]
    simp [existsPath, h2]

theorem ancClosed_empty {T : Type} : ancClosed ([] : Store T) := by
  intro k hk
  simp [existsPath, lookupStore, aLookup] at hk

theorem ancClosed_setEntry_assert {T : Type} {files : Store T} {p : String}
    (v : DirEnt T) (hclosed : ancClosed files)
    (hassert : assertPathExists files (getParent p) = true) :
    ancClosed (setEntry files p v) := by
  intro k hk a ha hne
  rw [existsPath_setEntry_iff] at hk
  rw [existsPath_setEntry_iff]
  rcases hk with hk | rfl
  · exact Or.inl (hclosed k hk a ha hne)
  · exact Or.inl (assert_prefixes files (getParent k) hassert a
      (properAncestor_mem_parent_prefixes ha hne) hne)

theorem ancClosed_mkdirRec {T : Type} {files : Store T} (p : String)
    (hclosed : ancClosed files) :
    ancClosed ((List.range (segsOf p).length).foldl
      (fun st i => setEntry st ⟨joinSegs ((segsOf p).take i)⟩ DirEnt.dir) files) := by
  intro k hk a ha hne
  rw [exists_foldl_set] at hk
  rw [exists_foldl_set]
  rcases hk with hk | ⟨i, hi, hik⟩
  · exact Or.inl (hclosed k hk a ha hne)
  · rw [List.mem_range] at hi
    subst hik
    cases i with
    | zero =>
      have h0 : (⟨joinSegs ((segsOf p).take 0)⟩ : String) = "" := rfl
      rw [h0] at ha
      have hpa : properAncestors "" = [""] := by decide
      rw [hpa, List.mem_singleton] at ha
      exact absurd ha hne
    | succ n =>
      have htake_ne : (segsOf p).take (n + 1) ≠ [] := by
        rw [Ne, List.take_eq_nil_iff]
        push_neg
        exact ⟨by omega, fun h => splitSegs_ne_nil p.data h⟩
      have htake_nos : ∀ s ∈ (segsOf p).take (n + 1), '/' ∉ s := by
        intro s hs
        exact noSlash_of_mem_splitSegs p.data s (List.take_subset _ _ hs)
      have hsegs : segsOf ⟨joinSegs ((segsOf p).take (n + 1))⟩ =
          (segsOf p).take (n + 1) :=
        segsOf_mk_join _ htake_ne htake_nos
      rw [properAncestors, hsegs] at ha
      simp only [List.mem_map, List.mem_range, List.length_take] at ha
      obtain ⟨j, hj, rfl⟩ := ha
      rw [List.take_take]
      refine Or.inr ⟨j ⊓ (n + 1), ?_, rfl⟩
      rw [List.mem_range]
      omega

theorem ancClosed_rmFilter {T : Type} {files : Store T} (P : String)
    (hclosed : ancClosed files) :
    ancClosed (files.filter (fun kv => !(strContains kv.1 P))) := by
  intro k hk a ha hne
  rw [existsPath_rmFilter_iff] at hk
  rw [existsPath_rmFilter_iff]
  obtain ⟨hk1, hk2⟩ := hk
  refine ⟨hclosed k hk1 a ha hne, ?_⟩
  by_cases hc : strContains a P = true
  · exfalso
    obtain ⟨s, hs⟩ := properAncestors_split ha hne
    have : strContains k P = true := by
      rw [strContains, hs]
      exact containsSub_append_extend _ _ _ hc
    rw [this] at hk2
    exact absurd hk2 (by simp)
  · simpa using hc

theorem ancClosed_applyFsOp {T : Type} {files : Store T} (op : FsOp T)
    (hclosed : ancClosed files) (hnr : op.isRenameOp = false) :
    ancClosed (applyFsOp files op) := by
  cases op with
  | mkdirOp p r =>
    cases r with
    | true =>
      rw [applyFsOp, mkdir]
      simp only [if_true]
      exact ancClosed_mkdirRec (normPath p) hclosed
    | false =>
      rw [applyFsOp, mkdir]
      simp only [Bool.false_eq_true, if_false]
      by_cases ha : assertPathExists files (getParent (normPath p)) = true
      · rw [if_pos ha]
        exact ancClosed_setEntry_assert DirEnt.dir hclosed ha
      · rw [if_neg ha]
        exact hclosed
  | writeOp p v =>
    rw [applyFsOp, writeFile]
    by_cases ha : assertPathExists files (getParent (normPath p)) = true
    · rw [if_pos ha]
      cases hl : lookupStore files (normPath p) with
      | none => exact ancClosed_setEntry_assert _ hclosed ha
      | some ent =>
        cases ent with
        | dir => exact hclosed
        | file w => exact ancClosed_setEntry_assert _ hclosed ha
    · rw [if_neg ha]
      exact hclosed
  | renameOp a b => exact absurd hnr (by simp [FsOp.isRenameOp])
  | rmOp p f r =>
    rw [applyFsOp, rm]
    by_cases h1 : (!f && !assertPathExists files (normPath p)) = true
    · rw [if_pos h1]
      exact hclosed
    · rw [if_neg h1]
      by_cases h2 : (!r && (keysOf files).any
          (fun k => k != normPath p && strContains k (normPath p)) && !f) = true
      · rw [if_pos h2]
        exact hclosed
      · rw [if_neg h2]
        exact ancClosed_rmFilter (normPath p) hclosed

theorem ancClosed_foldl {T : Type} (ops : List (FsOp T)) (start : Store T)
    (hstart : ancClosed start) (h : ∀ op ∈ ops, op.isRenameOp = false) :
    ancClosed (ops.foldl applyFsOp start) := by
  induction ops generalizing start with
  | nil => exact hstart
  | cons op rest ih =>
    rw [List.foldl_cons]
    exact ih (applyFsOp start op)
      (ancClosed_applyFsOp op hstart (h op (List.mem_cons_self _ _)))
      (fun o ho => h o (List.mem_cons_of_mem _ ho))

/-- Claim C2 as amended: starting from the empty store, after any sequence of
mkdir, writeFile and rm operations (rename excluded), every nonempty proper
ancestor of every stored path is itself stored. -/
theorem C2_amended {T : Type} (ops : List (FsOp T))
    (h : ∀ op ∈ ops, op.isRenameOp = false) : ancClosed (runFsOps ops) :=
  ancClosed_foldl ops [] ancClosed_empty h

theorem C2_amended_witness :
    existsPath (runFsOps [FsOp.mkdirOp "x" false, (FsOp.writeOp "x/y" 5 : FsOp Nat)])
      "x" = true := by
  have h := C2_amended [FsOp.mkdirOp "x" false, (FsOp.writeOp "x/y" 5 : FsOp Nat)]
    (by decide)
  exact h "x/y" (by decide) "x" (by decide) (by decide)

/-! ## Claim C8 (amended): rename relabels its subtree when no destination
collides with an existing key -/

theorem mem_keysOf_iff {T : Type} (files : Store T) (k : String) :
    k ∈ keysOf files ↔ existsPath files k = true := by
  rw [keysOf, existsPath, lookupStore]
  exact (aLookup_isSome_iff_mem_keys files k).symm

theorem matchesRen_isPrefix {previous k : String} (h : matchesRen previous k = true) :
    previous.data.isPrefixOf k.data = true := by
  rw [matchesRen, Bool.or_eq_true] at h
  rcases h with h | h
  · rw [isAncestor_iff] at h
    obtain ⟨s, hs⟩ := h
    exact (isPrefixOf_iff_append _ _).mpr ⟨'/' :: s, hs⟩
  · have hk : k = previous := beq_iff_eq.mp h
    subst hk
    exact (isPrefixOf_iff_append _ _).mpr ⟨[], by simp⟩

theorem destRen_data {previous next k : String} (h : matchesRen previous k = true) :
    (strReplaceFirst k previous next).data =
      next.data ++ k.data.drop previous.data.length := by
  show replaceFirst previous.data next.data k.data = _
  rw [replaceFirst_of_isPrefix _ _ _ (matchesRen_isPrefix h)]

theorem destRen_inj {previous next k1 k2 : String}
    (h1 : matchesRen previous k1 = true) (h2 : matchesRen previous k2 = true)
    (he : strReplaceFirst k1 previous next = strReplaceFirst k2 previous next) :
    k1 = k2 := by
  obtain ⟨t1, ht1⟩ := (isPrefixOf_iff_append _ _).mp (matchesRen_isPrefix h1)
  obtain ⟨t2, ht2⟩ := (isPrefixOf_iff_append _ _).mp (matchesRen_isPrefix h2)
  have hd := congrArg String.data he
  rw [destRen_data h1, destRen_data h2, ht1, ht2,
    List.drop_left, List.drop_left] at hd
  have ht : t1 = t2 := List.append_cancel_left hd
  apply stringEqOfData
  rw [ht1, ht2, ht]

theorem lookupStore_setEntry_self {T : Type} (files : Store T) (k : String)
    (v : DirEnt T) : lookupStore (setEntry files k v) k = some v :=
  aLookup_aSet_self files k v

theorem lookupStore_setEntry_ne {T : Type} (files : Store T) (k q : String)
    (v : DirEnt T) (h : q ≠ k) :
    lookupStore (setEntry files k v) q = lookupStore files q :=
  aLookup_aSet_ne files k q v h

theorem lookupStore_delEntry_self {T : Type} (files : Store T) (k : String) :
    lookupStore (delEntry files k) k = none :=
  aLookup_aDel_self files k

theorem lookupStore_delEntry_ne {T : Type} (files : Store T) (k q : String)
    (h : q ≠ k) : lookupStore (delEntry files k) q = lookupStore files q :=
  aLookup_aDel_ne files k q h

theorem renameGo_frame {T : Type} (previous next : String) (ks : List String)
    (draft : Store T) (P : String)
    (h : ∀ k ∈ ks, matchesRen previous k = true →
        (k ≠ P ∧ strReplaceFirst k previous next ≠ P)) :
    lookupStore (renameGo previous next ks draft) P = lookupStore draft P := by
  induction ks generalizing draft with
  | nil => rfl
  | cons k rest ih =>
    rw [renameGo]
    by_cases hm : matchesRen previous k = true
    · rw [if_pos hm]
      cases hl : lookupStore draft k with
      | none => exact ih draft (fun k2 hk2 => h k2 (List.mem_cons_of_mem _ hk2))
      | some ent =>
        rw [ih _ (fun k2 hk2 => h k2 (List.mem_cons_of_mem _ hk2))]
        obtain ⟨hkP, hdP⟩ := h k (List.mem_cons_self _ _) hm
        rw [lookupStore_delEntry_ne _ _ _ (fun he => hkP he.symm)]
        rw [lookupStore_setEntry_ne _ _ _ _ (fun he => hdP he.symm)]
    · rw [if_neg hm]
      exact ih draft (fun k2 hk2 => h k2 (List.mem_cons_of_mem _ hk2))

theorem renameGo_moved {T : Type} (previous next : String) (ks : List String)
    (draft : Store T) (k0 : String)
    (hnd : ks.Nodup) (hk0 : k0 ∈ ks) (hm0 : matchesRen previous k0 = true)
    (hsome : (lookupStore draft k0).isSome = true)
    (hdests : ∀ k ∈ ks, matchesRen previous k = true →
        ∀ k2 ∈ ks, strReplaceFirst k previous next ≠ k2) :
    lookupStore (renameGo previous next ks draft)
        (strReplaceFirst k0 previous next) = lookupStore draft k0 := by
  induction ks generalizing draft with
  | nil => cases hk0
  | cons k rest ih =>
    obtain ⟨hknr, hndr⟩ := List.nodup_cons.mp hnd
    rcases List.mem_cons.mp hk0 with rfl | hk0r
    · rw [renameGo, if_pos hm0]
      cases hl : lookupStore draft k0 with
      | none =>
        rw [hl] at hsome
        exact absurd hsome (by simp)
      | some ent =>
        rw [renameGo_frame previous next rest _ _ ?hframe]
        · rw [lookupStore_delEntry_ne _ _ _
            (hdests k0 (List.mem_cons_self _ _) hm0 k0 (List.mem_cons_self _ _))]
          rw [lookupStore_setEntry_self]
        case hframe =>
          intro k2 hk2 hm2
          constructor
          · intro he
            exact hdests k0 (List.mem_cons_self _ _) hm0 k2
              (List.mem_cons_of_mem _ hk2) he.symm
          · intro he
            have hk2k0 : k2 = k0 := destRen_inj hm2 hm0 he
            subst hk2k0
            exact hknr hk2
    · have hk0k : k0 ≠ k := fun he => hknr (he ▸ hk0r)
      rw [renameGo]
      have hdests2 : ∀ k2 ∈ rest, matchesRen previous k2 = true →
          ∀ k3 ∈ rest, strReplaceFirst k2 previous next ≠ k3 :=
        fun k2 hk2 hm2 k3 hk3 =>
          hdests k2 (List.mem_cons_of_mem _ hk2) hm2 k3 (List.mem_cons_of_mem _ hk3)
      by_cases hm : matchesRen previous k = true
      · rw [if_pos hm]
        cases hl : lookupStore draft k with
        | none => exact ih draft hndr hk0r hsome hdests2
        | some ent =>
          have hpres : lookupStore (delEntry (setEntry draft
              (strReplaceFirst k previous next) ent) k) k0 = lookupStore draft k0 := by
            rw [lookupStore_delEntry_ne _ _ _ hk0k]
            rw [lookupStore_setEntry_ne _ _ _ _
              (fun he => hdests k (List.mem_cons_self _ _) hm k0
                (List.mem_cons_of_mem _ hk0r) he.symm)]
          rw [ih _ hndr hk0r (by rw [hpres]; exact hsome) hdests2, hpres]
      · rw [if_neg hm]
        exact ih draft hndr hk0r hsome hdests2

theorem renameGo_deleted {T : Type} (previous next : String) (ks : List String)
    (draft : Store T) (P : String)
    (hnd : ks.Nodup) (hP : P ∈ ks) (hmP : matchesRen previous P = true)
    (hdests : ∀ k ∈ ks, matchesRen previous k = true →
        ∀ k2 ∈ ks, strReplaceFirst k previous next ≠ k2) :
    lookupStore (renameGo previous next ks draft) P = none := by
  induction ks generalizing draft with
  | nil => cases hP
  | cons k rest ih =>
    obtain ⟨hknr, hndr⟩ := List.nodup_cons.mp hnd
    rcases List.mem_cons.mp hP with rfl | hPr
    · have hframe : ∀ k2 ∈ rest, matchesRen previous k2 = true →
          (k2 ≠ P ∧ strReplaceFirst k2 previous next ≠ P) := by
        intro k2 hk2 hm2
        refine ⟨fun he => hknr (he ▸ hk2), ?_⟩
        exact hdests k2 (List.mem_cons_of_mem _ hk2) hm2 P (List.mem_cons_self _ _)
      rw [renameGo, if_pos hmP]
      cases hl : lookupStore draft P with
      | none =>
        rw [renameGo_frame previous next rest draft P hframe]
        exact hl
      | some ent =>
        rw [renameGo_frame previous next rest _ P hframe]
        rw [lookupStore_delEntry_self]
    · have hdests2 : ∀ k2 ∈ rest, matchesRen previous k2 = true →
          ∀ k3 ∈ rest, strReplaceFirst k2 previous next ≠ k3 :=
        fun k2 hk2 hm2 k3 hk3 =>
          hdests k2 (List.mem_cons_of_mem _ hk2) hm2 k3 (List.mem_cons_of_mem _ hk3)
      rw [renameGo]
      by_cases hm : matchesRen previous k = true
      · rw [if_pos hm]
        cases hl : lookupStore draft k with
        | none => exact ih _ hndr hPr hdests2
        | some ent => exact ih _ hndr hPr hdests2
      · rw [if_neg hm]
        exact ih _ hndr hPr hdests2

/-- Claim C8 as amended: for a store with distinct keys, a stored normalized
path A and a non-existing normalized path B such that no relabelled
destination is itself a stored key, rename(A, B) succeeds and relabels A and
every descendant of A — replacing the A prefix by B and preserving each
entry (kind and value) — deletes the old keys, and leaves every non-related
stored path untouched. -/
theorem C8_amended {T : Type} (files : Store T) (A B : String)
    (hnd : (keysOf files).Nodup)
    (hnormA : normPath A = A) (hnormB : normPath B = B)
    (hA : existsPath files A = true) (hB : existsPath files B = false)
    (hcol : ∀ k, k ∈ keysOf files → matchesRen A k = true →
        existsPath files (strReplaceFirst k A B) = false) :
    rename files A B = Except.ok (renameGo A B (keysOf files) files)
    ∧ (∀ k, k ∈ keysOf files → matchesRen A k = true →
        ((strReplaceFirst k A B).data = B.data ++ k.data.drop A.data.length
        ∧ lookupStore (renameGo A B (keysOf files) files) (strReplaceFirst k A B) =
            lookupStore files k
        ∧ lookupStore (renameGo A B (keysOf files) files) k = none))
    ∧ (∀ p, p ∈ keysOf files → matchesRen A p = false →
        lookupStore (renameGo A B (keysOf files) files) p = lookupStore files p) := by
  have hdests : ∀ k ∈ keysOf files, matchesRen A k = true →
      ∀ k2 ∈ keysOf files, strReplaceFirst k A B ≠ k2 := by
    intro k hk hm k2 hk2 he
    have h1 := hcol k hk hm
    rw [he] at h1
    rw [(mem_keysOf_iff files k2).mp hk2] at h1
    exact absurd h1 (by simp)
  refine ⟨?_, ?_, ?_⟩
  · simp [rename, hnormA, hnormB, hB, hA]
  · intro k hk hm
    refine ⟨destRen_data hm, ?_, ?_⟩
    · exact renameGo_moved A B (keysOf files) files k hnd hk hm
        ((mem_keysOf_iff files k).mp hk) hdests
    · exact renameGo_deleted A B (keysOf files) files k hnd hk hm hdests
  · intro p hp hmp
    apply renameGo_frame
    intro k hk hm
    constructor
    · intro he
      rw [he, hmp] at hm
      exact absurd hm (by simp)
    · exact hdests k hk hm p hp

theorem C8_amended_witness :
    rename [("a", DirEnt.dir), ("a/x", (DirEnt.file 1 : DirEnt Nat)), ("c", DirEnt.dir)]
        "a" "b"
      = Except.ok (renameGo "a" "b"
          (keysOf [("a", DirEnt.dir), ("a/x", (DirEnt.file 1 : DirEnt Nat)), ("c", DirEnt.dir)])
          [("a", DirEnt.dir), ("a/x", DirEnt.file 1), ("c", DirEnt.dir)])
    ∧ lookupStore (renameGo "a" "b"
          (keysOf [("a", DirEnt.dir), ("a/x", (DirEnt.file 1 : DirEnt Nat)), ("c", DirEnt.dir)])
          [("a", DirEnt.dir), ("a/x", DirEnt.file 1), ("c", DirEnt.dir)])
        (strReplaceFirst "a/x" "a" "b")
      = lookupStore [("a", DirEnt.dir), ("a/x", (DirEnt.file 1 : DirEnt Nat)), ("c", DirEnt.dir)] "a/x"
    ∧ lookupStore (renameGo "a" "b"
          (keysOf [("a", DirEnt.dir), ("a/x", (DirEnt.file 1 : DirEnt Nat)), ("c", DirEnt.dir)])
          [("a", DirEnt.dir), ("a/x", DirEnt.file 1), ("c", DirEnt.dir)]) "a/x" = none
    ∧ lookupStore (renameGo "a" "b"
          (keysOf [("a", DirEnt.dir), ("a/x", (DirEnt.file 1 : DirEnt Nat)), ("c", DirEnt.dir)])
          [("a", DirEnt.dir), ("a/x", DirEnt.file 1), ("c", DirEnt.dir)]) "c"
      = lookupStore [("a", DirEnt.dir), ("a/x", (DirEnt.file 1 : DirEnt Nat)), ("c", DirEnt.dir)] "c" := by
  have h := C8_amended
    [("a", DirEnt.dir), ("a/x", (DirEnt.file 1 : DirEnt Nat)), ("c", DirEnt.dir)]
    "a" "b" (by decide) (by decide) (by decide) (by decide) (by decide) (by decide)
  exact ⟨h.1, (h.2.1 "a/x" (by decide) (by decide)).2.1,
    (h.2.1 "a/x" (by decide) (by decide)).2.2, h.2.2 "c" (by decide) (by decide)⟩

/-! ## Claim C5: the move transform on nested selections -/

theorem stringEqOfSegs {p a : String} (h : segsOf p = segsOf a) : p = a :=
  stringEqOfData (by rw [← joinSegs_segsOf p, ← joinSegs_segsOf a, h])

theorem isAncestor_prefix_segs {p a : String} (h : isAncestor p a = true) :
    ∃ t, t ≠ [] ∧ segsOf p = segsOf a ++ t := by
  rw [isAncestor] at h
  by_cases he : (p == a) = true
  · rw [if_pos he] at h
    exact absurd h (by simp)
  · rw [if_neg he] at h
    obtain ⟨t, ht⟩ := (isPrefixOf_iff_append _ _).mp h
    refine ⟨t, ?_, ht⟩
    intro hte
    subst hte
    rw [List.append_nil] at ht
    exact he (beq_iff_eq.mpr (stringEqOfSegs ht))

theorem isAncestor_of_segs {p a : String} (t : List (List Char)) (hne : t ≠ [])
    (h : segsOf p = segsOf a ++ t) : isAncestor p a = true := by
  have hpa : p ≠ a := by
    intro he
    subst he
    have := congrArg List.length h
    rw [List.length_append] at this
    cases t with
    | nil => exact hne rfl
    | cons u us => simp at this
  rw [isAncestor, if_neg (by simpa using hpa)]
  exact (isPrefixOf_iff_append _ _).mpr ⟨t, h⟩

/-- Two selected ancestors of the same path are comparable: equal, or one is
an ancestor of the other. -/
theorem isAncestor_trichotomy {D y A : String} (hy : isAncestor D y = true)
    (hA : isAncestor D A = true) :
    y = A ∨ isAncestor A y = true ∨ isAncestor y A = true := by
  obtain ⟨t1, ht1ne, ht1⟩ := isAncestor_prefix_segs hy
  obtain ⟨t2, ht2ne, ht2⟩ := isAncestor_prefix_segs hA
  have he : segsOf y ++ t1 = segsOf A ++ t2 := by rw [← ht1, ← ht2]
  rcases List.append_eq_append_iff.mp he with ⟨w, hw1, _⟩ | ⟨w, hw1, _⟩
  · cases w with
    | nil =>
      left
      rw [List.append_nil] at hw1
      exact (stringEqOfSegs hw1).symm
    | cons u us =>
      right; left
      exact isAncestor_of_segs (u :: us) (by simp) hw1
  · cases w with
    | nil =>
      left
      rw [List.append_nil] at hw1
      exact stringEqOfSegs hw1
    | cons u us =>
      right; right
      exact isAncestor_of_segs (u :: us) (by simp) hw1

theorem insertBy_pairwise_lowLt {x : String} {ys : List String}
    (hys : ys.Pairwise (fun a b => lowLt a b = true))
    (hne : ∀ y ∈ ys, lowStr x ≠ lowStr y) :
    (insertBy lowLt x ys).Pairwise (fun a b => lowLt a b = true) := by
  induction ys with
  | nil => simp [insertBy]
  | cons y ys ih =>
    obtain ⟨hy_all, hys2⟩ := List.pairwise_cons.mp hys
    rw [insertBy]
    by_cases hxy : lowLt x y = true
    · rw [if_pos hxy, List.pairwise_cons]
      refine ⟨?_, hys⟩
      intro z hz
      rcases List.mem_cons.mp hz with rfl | hz2
      · exact hxy
      · exact lowLt_trans hxy (hy_all z hz2)
    · rw [if_neg hxy, List.pairwise_cons]
      have hxyf : lowLt x y = false := by simpa using hxy
      have hyx : lowLt y x = true :=
        lowLt_of_not_of_ne hxyf (hne y (List.mem_cons_self _ _))
      refine ⟨?_, ih hys2 (fun z hz => hne z (List.mem_cons_of_mem _ hz))⟩
      intro z hz
      rcases List.mem_cons.mp ((insertBy_perm lowLt x ys).mem_iff.mp hz) with rfl | hz3
      · exact hyx
      · exact hy_all z hz3

theorem sortByLt_pairwise_lowLt {l : List String}
    (hdist : l.Pairwise (fun a b => lowStr a ≠ lowStr b)) :
    (sortByLt lowLt l).Pairwise (fun a b => lowLt a b = true) := by
  induction l with
  | nil => simp [sortByLt]
  | cons x xs ih =>
    obtain ⟨hx_all, hxs⟩ := List.pairwise_cons.mp hdist
    show (insertBy lowLt x (sortByLt lowLt xs)).Pairwise _
    apply insertBy_pairwise_lowLt (ih hxs)
    intro y hy
    exact hx_all y ((sortByLt_perm lowLt xs).mem_iff.mp hy)

/-- In a strictly sorted list, find? returns the minimal element satisfying
the predicate. -/
theorem find?_eq_some_of_minimal {pred : String → Bool} {l : List String}
    {A : String}
    (hsort : l.Pairwise (fun a b => lowLt a b = true))
    (hA : A ∈ l) (hpA : pred A = true)
    (hmin : ∀ y ∈ l, pred y = true → y = A ∨ lowLt A y = true) :
    l.find? pred = some A := by
  induction l with
  | nil => cases hA
  | cons h t ih =>
    obtain ⟨hh_all, ht⟩ := List.pairwise_cons.mp hsort
    by_cases hph : pred h = true
    · rw [List.find?_cons]
      simp only [hph]
      rcases hmin h (List.mem_cons_self _ _) hph with rfl | hlt
      · rfl
      · exfalso
        rcases List.mem_cons.mp hA with rfl | hA2
        · have hirr : lowLt A A = false := listLtb_irrefl _
          rw [hirr] at hlt
          exact absurd hlt (by simp)
        · have h1 := hh_all A hA2
          have h2 := lowLt_asymm hlt
          rw [h1] at h2
          exact absurd h2 (by simp)
    · rw [List.find?_cons]
      have hphf : pred h = false := by simpa using hph
      simp only [hphf]
      have hA2 : A ∈ t := by
        rcases List.mem_cons.mp hA with rfl | hA2
        · rw [hpA] at hphf
          exact absurd hphf (by simp)
        · exact hA2
      exact ih ht hA2 (fun y hy hpy => hmin y (List.mem_cons_of_mem _ hy) hpy)

theorem transformsGo_oldPaths (target : String) (rest : List String) :
    ∀ processed, (transformsGo target processed rest).map Transform.oldPath = rest := by
  induction rest with
  | nil => intro processed; rfl
  | cons p rest2 ih =>
    intro processed
    simp only [transformsGo, List.map_cons]
    rw [ih]

/-- A selected path with no selected ancestor anywhere produces a transform
with no found ancestor: it is renamed independently to target/name. -/
theorem transformsGo_mem_root (target A : String) (rest : List String) :
    ∀ processed : List String,
    A ∈ rest →
    (∀ X ∈ processed ++ rest, isAncestor A X = false) →
    (⟨A, destOf target none A, true⟩ : Transform) ∈
      transformsGo target processed rest := by
  induction rest with
  | nil =>
    intro _ hA _
    cases hA
  | cons p rest2 ih =>
    intro processed hA hout
    rcases List.mem_cons.mp hA with rfl | hA2
    · have hanc : processed.find? (fun q => isAncestor A q) = none := by
        rw [List.find?_eq_none]
        intro q hq
        rw [hout q (List.mem_append_left _ hq)]
        simp
      simp only [transformsGo]
      rw [hanc]
      exact List.mem_cons_self _ _
    · simp only [transformsGo]
      apply List.mem_cons_of_mem
      apply ih (processed ++ [p]) hA2
      intro X hX
      rw [List.append_assoc] at hX
      exact hout X hX

/-- A selected path D whose outermost selected ancestor is A (A selected, no
selected ancestor of A) produces a transform that is not renamed
independently and whose destination is computed relative to A. -/
theorem transformsGo_mem_ancestor (target A D : String)
    (hAD : isAncestor D A = true) (rest : List String) :
    ∀ processed : List String,
    (processed ++ rest).Pairwise (fun a b => lowLt a b = true) →
    A ∈ processed ++ rest → D ∈ rest →
    (∀ X ∈ processed ++ rest, isAncestor A X = false) →
    (⟨D, destOf target (some A) D, false⟩ : Transform) ∈
      transformsGo target processed rest := by
  induction rest with
  | nil =>
    intro _ _ _ hD _
    cases hD
  | cons p rest2 ih =>
    intro processed hsort hA hD hout
    rcases List.mem_cons.mp hD with rfl | hD2
    · have hlowAD : lowLt A D = true := lowLt_of_isAncestor hAD
      have hAproc : A ∈ processed := by
        rcases List.mem_append.mp hA with h | h
        · exact h
        · exfalso
          rcases List.mem_cons.mp h with rfl | h2
          · rw [isAncestor, if_pos (by simp)] at hAD
            exact absurd hAD (by simp)
          · obtain ⟨_, hsort2, _⟩ := List.pairwise_append.mp hsort
            have hDA := (List.pairwise_cons.mp hsort2).1 A h2
            have h3 := lowLt_asymm hDA
            rw [hlowAD] at h3
            exact absurd h3 (by simp)
      have hanc : processed.find? (fun q => isAncestor D q) = some A := by
        apply find?_eq_some_of_minimal (List.pairwise_append.mp hsort).1 hAproc hAD
        intro y hy hpy
        rcases isAncestor_trichotomy hpy hAD with h | h | h
        · exact Or.inl h
        · rw [hout y (List.mem_append_left _ hy)] at h
          exact absurd h (by simp)
        · exact Or.inr (lowLt_of_isAncestor h)
      simp only [transformsGo]
      rw [hanc]
      exact List.mem_cons_self _ _
    · simp only [transformsGo]
      apply List.mem_cons_of_mem
      apply ih (processed ++ [p])
      · rw [List.append_assoc]
        exact hsort
      · rw [List.append_assoc]
        exact hA
      · exact hD2
      · intro X hX
        rw [List.append_assoc] at hX
        exact hout X hX

/-- Claim C5 as amended: for a selection with pairwise distinct lowercased
paths containing A and a descendant D of A, where no selected path is a
strict ancestor of A, the move transforms rename A independently to
target/name(A), do not rename D independently, and compute D's destination
from A (target/name(A)/D-with-the-A-slash-prefix-stripped); the stripped
component is exactly the suffix of D after the A prefix and its slash. -/
theorem C5_amended (selection : List String) (A D target : String)
    (hdist : selection.Pairwise (fun x y => lowStr x ≠ lowStr y))
    (hA : A ∈ selection) (hD : D ∈ selection) (hAD : isAncestor D A = true)
    (hout : ∀ X ∈ selection, isAncestor A X = false) :
    ((⟨A, destOf target none A, true⟩ : Transform) ∈ transformsOf selection target)
    ∧ ((⟨D, destOf target (some A) D, false⟩ : Transform) ∈ transformsOf selection target)
    ∧ (∀ t ∈ transformsOf selection target, t.oldPath = A →
        t = ⟨A, destOf target none A, true⟩)
    ∧ (∀ t ∈ transformsOf selection target, t.oldPath = D →
        t = ⟨D, destOf target (some A) D, false⟩)
    ∧ (strReplaceFirst D (A ++ "/") "").data = D.data.drop (A.data.length + 1) := by
  have hperm := sortByLt_perm lowLt selection
  have hsorted := sortByLt_pairwise_lowLt hdist
  have hA2 : A ∈ sortByLt lowLt selection := hperm.mem_iff.mpr hA
  have hD2 : D ∈ sortByLt lowLt selection := hperm.mem_iff.mpr hD
  have hout2 : ∀ X ∈ ([] : List String) ++ sortByLt lowLt selection,
      isAncestor A X = false :=
    fun X hX => hout X (hperm.mem_iff.mp (by simpa using hX))
  have hmem1 : (⟨A, destOf target none A, true⟩ : Transform) ∈
      transformsOf selection target :=
    transformsGo_mem_root target A (sortByLt lowLt selection) [] hA2 hout2
  have hmem2 : (⟨D, destOf target (some A) D, false⟩ : Transform) ∈
      transformsOf selection target :=
    transformsGo_mem_ancestor target A D hAD (sortByLt lowLt selection) []
      (by simpa using hsorted) (by simpa using hA2) hD2 hout2
  have hnd : (sortByLt lowLt selection).Nodup := by
    rw [hperm.nodup_iff]
    refine hdist.imp ?_
    intro a b hxy he
    exact hxy (by rw [he])
  have hmapnd : ((transformsOf selection target).map Transform.oldPath).Nodup := by
    rw [transformsOf, transformsGo_oldPaths]
    exact hnd
  have huniq : ∀ t1 ∈ transformsOf selection target,
      ∀ t2 ∈ transformsOf selection target, t1.oldPath = t2.oldPath → t1 = t2 :=
    fun t1 h1 t2 h2 he => List.inj_on_of_nodup_map hmapnd h1 h2 he
  refine ⟨hmem1, hmem2, ?_, ?_, ?_⟩
  · intro t ht hto
    exact huniq t ht _ hmem1 (by rw [hto])
  · intro t ht hto
    exact huniq t ht _ hmem2 (by rw [hto])
  · obtain ⟨s, hs⟩ := (isAncestor_iff D A).mp hAD
    have hpre : (A ++ "/").data.isPrefixOf D.data = true := by
      rw [isPrefixOf_iff_append]
      refine ⟨s, ?_⟩
      rw [hs, String.data_append]
      simp
    show replaceFirst (A ++ "/").data ([] : List Char) D.data =
      D.data.drop (A.data.length + 1)
    rw [replaceFirst_of_isPrefix _ _ _ hpre]
    rw [String.data_append]
    simp

/-- A concrete controller state for refuting claim C5: directories a, a/b,
a/b/c and t. -/
def moveCexState : TreeState Nat :=
  ⟨emptyRegistry,
    runFsOps [FsOp.mkdirOp "a" false, FsOp.mkdirOp "a/b" false,
      FsOp.mkdirOp "a/b/c" false, FsOp.mkdirOp "t" false],
    [], [], none⟩

/-- Claim C5, refuted at a concrete input: the selection a, a/b, a/b/c
contains both A = a/b and its descendant D = a/b/c, yet moving it to t does
not rename a/b to t/b (nor compute t/b/c for the descendant): a/b has a
selected ancestor itself and travels as part of the subtree of a, ending at
t/a/b. -/
theorem C5_counterexample :
    ("a/b" ∈ (["a", "a/b", "a/b/c"] : List String))
    ∧ ("a/b/c" ∈ (["a", "a/b", "a/b/c"] : List String))
    ∧ isAncestor "a/b/c" "a/b" = true
    ∧ (moveSelectedDirEnts ["a", "a/b", "a/b/c"] "t" "" moveCexState).1 = none
    ∧ existsPath (moveSelectedDirEnts ["a", "a/b", "a/b/c"] "t" "" moveCexState).2.store
        "t/b" = false
    ∧ existsPath (moveSelectedDirEnts ["a", "a/b", "a/b/c"] "t" "" moveCexState).2.store
        "t/b/c" = false
    ∧ existsPath (moveSelectedDirEnts ["a", "a/b", "a/b/c"] "t" "" moveCexState).2.store
        "t/a/b" = true
    ∧ existsPath (moveSelectedDirEnts ["a", "a/b", "a/b/c"] "t" "" moveCexState).2.store
        "t/a/b/c" = true := by
  decide

theorem C5_amended_witness :
    ((⟨"a", destOf "t" none "a", true⟩ : Transform) ∈ transformsOf ["a", "a/x"] "t")
    ∧ ((⟨"a/x", destOf "t" (some "a") "a/x", false⟩ : Transform) ∈
        transformsOf ["a", "a/x"] "t")
    ∧ (strReplaceFirst "a/x" ("a" ++ "/") "").data =
        "a/x".data.drop ("a".data.length + 1) := by
  have h := C5_amended ["a", "a/x"] "a" "a/x" "t"
    (by decide) (by decide) (by decide) (by decide) (by decide)
  exact ⟨h.1, h.2.1, h.2.2.2.2⟩

end SolidFs
